import Mathlib

/-!
Verification of the adaptive substitution compressor (src/data/compress.py)
and the binary codec primitives it uses (src/data/bytes.py).

Bytes are modelled as lists of naturals (each element a byte value); Python
byte-string slicing, `find`, and dict operations are modelled explicitly,
including their behaviour on negative indices, which the decompressor can
reach when `find` returns -1.
-/

set_option maxHeartbeats 1000000
set_option maxRecDepth 2048

abbrev Bytes := List Nat

/-- NULLB = b"\x00" -/
def NULLB : Bytes := [0]

/-- Normalisation of one Python slice endpoint against a list of length len:
a negative index counts from the end (clamped at 0), a nonnegative one is
clamped at len. -/
def sliceIdx (len : Nat) (i : Int) : Nat :=
  if i < 0 then ((len : Int) + i).toNat else min i.toNat len

/-- Python s[a:b]. -/
def pySlice (s : Bytes) (a b : Int) : Bytes :=
  ((s.drop (sliceIdx s.length a)).take (sliceIdx s.length b - sliceIdx s.length a))

/-- Python s[a:]. -/
def pySliceFrom (s : Bytes) (a : Int) : Bytes :=
  s.drop (sliceIdx s.length a)

/-- remove(s, begin, length) = s[0:begin] + s[begin + length:] (compress.py) -/
def compress.remove (s : Bytes) (b l : Int) : Bytes :=
  pySlice s 0 b ++ pySliceFrom s (b + l)

/-- insert(s1, s2, begin) = s1[0:begin] + s2 + s1[begin:] (compress.py) -/
def compress.insert (s1 s2 : Bytes) (b : Int) : Bytes :=
  pySlice s1 0 b ++ s2 ++ pySliceFrom s1 b

/-- First index at which s2 occurs as a contiguous run of s1 (for nonempty s2
this is Python s1.find(s2)). -/
def subIdx (s2 : Bytes) : Bytes → Option Nat
  | [] => if s2.isPrefixOf ([] : Bytes) then some 0 else none
  | a :: t => if s2.isPrefixOf (a :: t) then some 0 else (subIdx s2 t).map (· + 1)

/-- find(s1, s2, start) = s1.find(s2, start) (compress.py): the lowest index at
or after the normalised start where s2 occurs, and -1 when there is none. -/
def compress.find (s1 s2 : Bytes) (start : Int) : Int :=
  let st : Nat := if start < 0 then ((s1.length : Int) + start).toNat else start.toNat
  match subIdx s2 (s1.drop st) with
  | some k => ((st + k : Nat) : Int)
  | none => -1

/-- Runtime failures of the Python code: assert failures (with their message),
dict KeyError, and int.to_bytes OverflowError. -/
inductive DErr where
  | assertionError : String → DErr
  | keyError : DErr
  | overflowError : DErr
deriving DecidableEq

/-- bytes.py Buffer: a byte string consumed from the left. -/
structure Buffer where
  buffer : Bytes
deriving DecidableEq

/-- Buffer.read: v = self.buffer[:n]; self.buffer = self.buffer[n:]; return v -/
def Buffer.read (bf : Buffer) (n : Nat) : Bytes × Buffer :=
  (bf.buffer.take n, ⟨bf.buffer.drop n⟩)

/-- int.from_bytes(bs, byteorder="big") with signed=False, on a byte string of
any length (Python accepts short reads silently). -/
def fromBE (bs : Bytes) : Nat :=
  bs.foldl (fun a d => a * 256 + d) 0

/-- Big-endian bytes of a value that fits in the given number of bytes
(the successful case of int.to_bytes(length, byteorder="big")). -/
def natToBE : Nat → Nat → Bytes
  | 0, _ => []
  | l + 1, n => natToBE l (n / 256) ++ [n % 256]

/-- int.from_bytes(bs, byteorder="big", signed=signed). -/
def pyFromBytes (bs : Bytes) (signed : Bool) : Int :=
  let u := fromBE bs
  if signed ∧ 2 * u ≥ 2 ^ (8 * bs.length) then (u : Int) - 2 ^ (8 * bs.length) else (u : Int)

/-- x.to_bytes(length, byteorder="big", signed=signed): OverflowError when the
value does not fit. -/
def pyIntToBytes (x : Int) (length : Nat) (signed : Bool) : Except DErr Bytes :=
  if signed then
    if (0 < length ∧ -(2 ^ (8 * length - 1) : Int) ≤ x ∧ x < (2 ^ (8 * length - 1) : Int))
        ∨ (length = 0 ∧ x = 0) then
      pure (natToBE length (x % (2 ^ (8 * length) : Int)).toNat)
    else throw DErr.overflowError
  else
    if 0 ≤ x ∧ x < (2 ^ (8 * length) : Int) then pure (natToBE length x.toNat)
    else throw DErr.overflowError

/-- bytes.py class Int, validateValue, for a field of the given BITS and
SIGNED. In the signed branch the source compares against cls.max() = 2**BITS/2
and cls.min() = -(2**BITS)/2; both are exact powers of two as Python floats,
so the comparisons x < 2**BITS/2 and x > -(2**BITS)/2 are encoded exactly by
2*x < 2^BITS and 2*x > -(2^BITS). Assertion order follows the source. -/
def IntDT.validateValue (bits : Nat) (signed : Bool) (x : Int) : Except DErr Unit :=
  if signed then
    if 2 * x < (2 ^ bits : Int) ∨ 2 * x > -(2 ^ bits : Int) then pure ()
    else throw (DErr.assertionError "Signed integer overflow")
  else
    if 0 ≤ x then
      if x < (2 ^ bits : Int) then pure ()
      else throw (DErr.assertionError "Integer overflow")
    else throw (DErr.assertionError "Got signed value, but this is unsigned datatype")

/-- bytes.py Int.toBytes: validateValue, then x.to_bytes(BITS // 8, "big", SIGNED). -/
def IntDT.toBytes (bits : Nat) (signed : Bool) (x : Int) : Except DErr Bytes := do
  IntDT.validateValue bits signed x
  pyIntToBytes x (bits / 8) signed

/-- bytes.py Int.fromBytes, specialised to a buffer: reads BITS // 8 bytes and
interprets them (the validateBytes isinstance assertion cannot fail here). -/
def IntDT.fromBytes (bits : Nat) (signed : Bool) (bf : Buffer) : Int × Buffer :=
  let (v, bf1) := bf.read (bits / 8)
  (pyFromBytes v signed, bf1)

/-- class uint32(Int): BITS = 32 -/
def uint32.toBytes (x : Int) : Except DErr Bytes := IntDT.toBytes 32 false x

def uint32.fromBytes (bf : Buffer) : Int × Buffer := IntDT.fromBytes 32 false bf

/-- bytes.py Sequence.toBytes: LENGTH_DT.toBytes(len(x)) + x with LENGTH_DT = uint32. -/
def Sequence.toBytes (x : Bytes) : Except DErr Bytes := do
  let lb ← uint32.toBytes (x.length : Int)
  pure (lb ++ x)

/-- bytes.py Sequence.fromBytes: length = LENGTH_DT.fromBytes(x); return x.read(length).
The declared length is unsigned, hence nonnegative. -/
def Sequence.fromBytes (bf : Buffer) : Bytes × Buffer :=
  let (length, bf1) := uint32.fromBytes bf
  bf1.read length.toNat

/-- compressStruct = Struct([Sequence, Sequence]); toBytes validates the value
count (2 fields) and concatenates the fields' encodings. -/
def compressStruct.toBytes (x : List Bytes) : Except DErr Bytes :=
  if x.length = 2 then do
    let p0 ← Sequence.toBytes (x.getD 0 [])
    let p1 ← Sequence.toBytes (x.getD 1 [])
    pure (p0 ++ p1)
  else throw (DErr.assertionError "Length of values and length of datatypes is not same")

/-- compressStruct.fromBytes: wrap in a Buffer and read the two sequences. -/
def compressStruct.fromBytes (x : Bytes) : Bytes × Bytes :=
  let bf : Buffer := ⟨x⟩
  let (r0, bf1) := Sequence.fromBytes bf
  let (r1, _) := Sequence.fromBytes bf1
  (r0, r1)

/-- A Python dict with byte-string keys and values, as an association list in
insertion order with pairwise-distinct keys; lookup is List.lookup. -/
abbrev Table := List (Bytes × Bytes)

/-- One dict assignment d[k] = v: overwrite in place, append when fresh. -/
def dictSet (d : Table) (k v : Bytes) : Table :=
  if d.any (fun p => p.1 == k) then d.map (fun p => if p.1 == k then (k, v) else p)
  else d ++ [(k, v)]

/-- The dict comprehension building tableInverted: for k, v in d.items(): acc[v] = k. -/
def invertDict (d : Table) : Table :=
  d.foldl (fun acc p => dictSet acc p.2 p.1) []

/-- compress.py class Compress: the instance state (history buffer, forward
table, inverted table). -/
structure Compress where
  buffer : Bytes
  table : Table
  tableInverted : Table
deriving DecidableEq

def Compress.KEY_SIZE : Nat := 1

def Compress.VALUE_SIZE : Nat := 3

def Compress.BUFFER_SIZE : Nat := 1000

/-- The overlapping windows b[i : i + VALUE_SIZE] for i in
range(0, len(b) - VALUE_SIZE + 1); the Nat expression len + 1 - VALUE_SIZE
equals Python max(0, len - VALUE_SIZE + 1). -/
def Compress.windows (b : Bytes) : List Bytes :=
  (List.range (b.length + 1 - Compress.VALUE_SIZE)).map
    (fun i => pySlice b (Nat.cast i : Int) (Nat.cast (i + Compress.VALUE_SIZE) : Int))

/-- The defaultdict counting loop of createTable: occurrences[b[i:i+VALUE_SIZE]] += 1,
with items listed in insertion (first-seen) order as Python dicts do. -/
def Compress.occurrences (b : Bytes) : List (Bytes × Nat) :=
  (Compress.windows b).foldl
    (fun acc w =>
      if acc.any (fun p => p.1 == w) then
        acc.map (fun p => if p.1 == w then (p.1, p.2 + 1) else p)
      else acc ++ [(w, 1)])
    []

/-- Insertion step of a stable sort by descending count: a new element goes
before the first strictly smaller count, after all equal ones. -/
def insDesc (x : Bytes × Nat) : List (Bytes × Nat) → List (Bytes × Nat)
  | [] => [x]
  | y :: ys => if y.2 ≤ x.2 then x :: y :: ys else y :: insDesc x ys

/-- occurrences.sort(key=lambda x: x[1], reverse=True): Python list.sort is a
stable sort; a stable insertion sort by descending count computes the same list. -/
def sortDesc : List (Bytes × Nat) → List (Bytes × Nat)
  | [] => []
  | x :: xs => insDesc x (sortDesc xs)

/-- Compress.createTable: count windows, sort by descending count, keep the
first 255, then t = {NULLB: NULLB} followed by t[i.to_bytes(1)] = occurrences[i - 1][0]
for i in range(1, len(occurrences)). -/
def Compress.createTable (b : Bytes) : Table :=
  let occ := (sortDesc (Compress.occurrences b)).take 255
  ([0], [0]) ::
    (List.range' 1 (occ.length - 1)).map (fun i => ([i], (occ.getD (i - 1) ([], 0)).1))

/-- Compress.generateTable: self.table = createTable(self.buffer);
self.tableInverted = {v: k for k, v in self.table.items()}. -/
def Compress.generateTable (st : Compress) : Compress :=
  let t := Compress.createTable st.buffer
  { st with table := t, tableInverted := invertDict t }

/-- Compress.__init__: buffer = b""; generateTable(). -/
def Compress.init : Compress :=
  Compress.generateTable { buffer := [], table := [], tableInverted := [] }

/-- Compress.addToBuffer: self.buffer += b; self.buffer = self.buffer[:BUFFER_SIZE]. -/
def Compress.addToBuffer (st : Compress) (b : Bytes) : Compress :=
  { st with buffer := (st.buffer ++ b).take Compress.BUFFER_SIZE }

/-! Nat-form characterisations of the Python slice primitives, used both for
the termination of the compress loop and throughout the proofs. -/

theorem sliceIdx_natCast (L i : Nat) : sliceIdx L (Nat.cast i : Int) = min i L := by
  simp [sliceIdx]

theorem pySlice_nat (s : Bytes) (i j : Nat) :
    pySlice s (Nat.cast i : Int) (Nat.cast j : Int) = (s.drop i).take (j - i) := by
  unfold pySlice
  rw [sliceIdx_natCast, sliceIdx_natCast]
  rcases le_or_lt i s.length with hi | hi
  · rw [min_eq_left hi]
    refine List.take_eq_take.mpr ?_
    simp only [List.length_drop]
    omega
  · have h2 : s.drop i = [] := List.drop_eq_nil_of_le (le_of_lt hi)
    rw [min_eq_right (le_of_lt hi)]
    simp [h2]

theorem pySliceFrom_nat (s : Bytes) (j : Nat) :
    pySliceFrom s (Nat.cast j : Int) = s.drop j := by
  unfold pySliceFrom
  rw [sliceIdx_natCast]
  rcases le_or_lt j s.length with h | h
  · rw [min_eq_left h]
  · rw [min_eq_right (le_of_lt h)]
    rw [List.drop_eq_nil_of_le (le_refl s.length), List.drop_eq_nil_of_le (le_of_lt h)]

theorem pySlice_zero (s : Bytes) (j : Nat) : pySlice s 0 (Nat.cast j : Int) = s.take j := by
  have h : pySlice s (Nat.cast 0 : Int) (Nat.cast j : Int) = (s.drop 0).take (j - 0) :=
    pySlice_nat s 0 j
  simpa using h

theorem remove_nat (s : Bytes) (i l : Nat) :
    compress.remove s (Nat.cast i : Int) (Nat.cast l : Int) = s.take i ++ s.drop (i + l) := by
  unfold compress.remove
  have hadd : (Nat.cast i : Int) + (Nat.cast l : Int) = (Nat.cast (i + l) : Int) :=
    (Nat.cast_add i l).symm
  rw [pySlice_zero, hadd, pySliceFrom_nat]

theorem insert_nat (s v : Bytes) (i : Nat) :
    compress.insert s v (Nat.cast i : Int) = s.take i ++ v ++ s.drop i := by
  unfold compress.insert
  rw [pySlice_zero, pySliceFrom_nat]

/-- Compress.compress's scan loop: while i + VALUE_SIZE < len(b), read the
window and the single byte at the cursor from the current buffer, substitute a
matching window by the placeholder 0x00 (appending its code), give a literal
0x00 its escape code, and advance the cursor by KEY_SIZE. -/
def Compress.compressLoop (inv : Table) (b : Bytes) (i : Nat) (compressed : List Bytes) :
    Except DErr (Bytes × List Bytes) :=
  if h : i + Compress.VALUE_SIZE < b.length then
    let bs := pySlice b (Nat.cast i : Int) (Nat.cast (i + Compress.VALUE_SIZE) : Int)
    let byte := pySlice b (Nat.cast i : Int) (Nat.cast (i + 1) : Int)
    match List.lookup bs inv with
    | some code =>
      Compress.compressLoop inv
        (compress.insert
          (compress.remove b (Nat.cast i : Int) (Nat.cast Compress.VALUE_SIZE : Int))
          NULLB (Nat.cast i : Int))
        (i + Compress.KEY_SIZE) (compressed ++ [code])
    | none =>
      if byte == NULLB then
        match List.lookup byte inv with
        | some code => Compress.compressLoop inv b (i + Compress.KEY_SIZE) (compressed ++ [code])
        | none => throw DErr.keyError
      else Compress.compressLoop inv b (i + Compress.KEY_SIZE) compressed
  else pure (b, compressed)
termination_by b.length - i
decreasing_by
  · rw [insert_nat, remove_nat]
    simp only [Compress.VALUE_SIZE, Compress.KEY_SIZE] at *
    simp only [List.length_append, List.length_take, List.length_drop, NULLB,
      List.length_cons, List.length_nil]
    omega
  · simp only [Compress.VALUE_SIZE, Compress.KEY_SIZE] at *
    omega
  · simp only [Compress.VALUE_SIZE, Compress.KEY_SIZE] at *
    omega

/-- Plumbing for Compress.compress: pair the updated state with the packed
bytes when the packing step succeeded, propagate its error otherwise. -/
def Compress.compressFinish (st1 : Compress) (r : Except DErr Bytes) :
    Except DErr (Compress × Bytes) :=
  match r with
  | Except.error e => Except.error e
  | Except.ok packed => Except.ok (st1, packed)

/-- Plumbing for Compress.compress: on a successful scan-loop outcome, pack
the mutated payload and the joined code stream with compressStruct; propagate
a loop error otherwise. -/
def Compress.compressPacked (st1 : Compress) (r : Except DErr (Bytes × List Bytes)) :
    Except DErr (Compress × Bytes) :=
  match r with
  | Except.error e => Except.error e
  | Except.ok (b1, compressed) =>
    Compress.compressFinish st1 (compressStruct.toBytes [b1, compressed.flatten])

/-- Compress.compress: append the original payload to the history buffer, run
the scan loop from cursor 0, then pack the mutated payload and the joined code
stream with compressStruct. -/
def Compress.compress (st : Compress) (b : Bytes) : Except DErr (Compress × Bytes) :=
  Compress.compressPacked (st.addToBuffer b)
    (Compress.compressLoop (st.addToBuffer b).tableInverted b 0 [])

/-- Compress.decompress's replay loop: while codes remain, pop the next code,
look its value up in the forward table (KeyError when absent), find the next
0x00 from the cursor (-1 when none remains, exactly as bytes.find), remove one
byte there, insert the value, and move the cursor past it. -/
def Compress.decompressLoop (table : Table) (compressed : List Bytes) (b : Bytes) (i : Int) :
    Except DErr Bytes :=
  match compressed with
  | [] => pure b
  | c :: rest =>
    match List.lookup c table with
    | none => throw DErr.keyError
    | some val =>
      let j := compress.find b NULLB i
      Compress.decompressLoop table rest (compress.insert (compress.remove b j 1) val j)
        (j + (val.length : Int))

/-- Compress.decompress: unpack the two sequences, split the code stream into
KEY_SIZE chunks, replay the codes, then append the reconstruction to the
history buffer. -/
def Compress.decompress (st : Compress) (bStruct : Bytes) : Except DErr (Compress × Bytes) := do
  let (b, compressedRaw) := compressStruct.fromBytes bStruct
  let compressed := (List.range compressedRaw.length).map
    (fun i => pySlice compressedRaw (Nat.cast i : Int) (Nat.cast (i + Compress.KEY_SIZE) : Int))
  let b1 ← Compress.decompressLoop st.table compressed b 0
  let st1 := st.addToBuffer b1
  pure (st1, b1)

/-- Suffix form of the compress loop: the part of the buffer at and after the
cursor determines the rest of the run; the processed prefix is never read
again. Used to reason about (and evaluate) Compress.compressLoop. -/
def encAux (inv : Table) : Bytes → Except DErr (Bytes × List Bytes)
  | a :: b :: c :: d :: rest =>
    match List.lookup [a, b, c] inv with
    | some code => do
      let (out, cs) ← encAux inv (d :: rest)
      pure (0 :: out, code :: cs)
    | none =>
      if a = 0 then
        match List.lookup [a] inv with
        | some code => do
          let (out, cs) ← encAux inv (b :: c :: d :: rest)
          pure (a :: out, code :: cs)
        | none => throw DErr.keyError
      else do
        let (out, cs) ← encAux inv (b :: c :: d :: rest)
        pure (a :: out, cs)
  | s => pure (s, [])

/-- Suffix form of the decompress loop: relative to the cursor, each code
consumes the first 0x00 of the remaining literal bytes and replaces it with
the code's value. none marks a run in which some code found no 0x00 left (or
a code missing from the table). -/
def decAux (table : Table) : List Bytes → Bytes → Option Bytes
  | [], s => some s
  | c :: rest, s =>
    (List.lookup c table).bind fun val =>
      (subIdx NULLB s).bind fun k =>
        (decAux table rest (s.drop (k + 1))).map fun r => s.take k ++ val ++ r

/-! Helper lemmas about take, drop and append. -/

theorem take_len_add (l1 l2 : Bytes) (n : Nat) :
    (l1 ++ l2).take (l1.length + n) = l1 ++ l2.take n := by
  induction l1 with
  | nil => simp
  | cons a t ih =>
      simp only [List.cons_append, List.length_cons]
      rw [show t.length + 1 + n = t.length + n + 1 from by omega]
      rw [List.take_succ_cons, ih]

theorem drop_len_add (l1 l2 : Bytes) (n : Nat) :
    (l1 ++ l2).drop (l1.length + n) = l2.drop n := by
  induction l1 with
  | nil => simp
  | cons a t ih =>
      simp only [List.cons_append, List.length_cons]
      rw [show t.length + 1 + n = t.length + n + 1 from by omega]
      rw [List.drop_succ_cons, ih]

theorem take_len (l1 l2 : Bytes) : (l1 ++ l2).take l1.length = l1 := by
  have h := take_len_add l1 l2 0
  simpa using h

theorem drop_len (l1 l2 : Bytes) : (l1 ++ l2).drop l1.length = l2 := by
  have h := drop_len_add l1 l2 0
  simpa using h

/-! Lemmas about subIdx and find on the placeholder byte. -/

theorem subIdx_zero_cons (s : Bytes) : subIdx NULLB (0 :: s) = some 0 := by
  simp [subIdx, NULLB, List.isPrefixOf]

theorem subIdx_cons_of_ne (a : Nat) (s : Bytes) (ha : a ≠ 0) :
    subIdx NULLB (a :: s) = (subIdx NULLB s).map (· + 1) := by
  have h0 : ¬ ((0 : Nat) = a) := fun h => ha h.symm
  simp [subIdx, NULLB, List.isPrefixOf, h0]

theorem subIdx_some_le (s : Bytes) (k : Nat) (h : subIdx NULLB s = some k) :
    k + 1 ≤ s.length := by
  induction s generalizing k with
  | nil => simp [subIdx, NULLB, List.isPrefixOf] at h
  | cons a t ih =>
      by_cases ha : a = 0
      · subst ha
        rw [subIdx_zero_cons] at h
        have : k = 0 := by simpa using h.symm
        subst this
        simp
      · rw [subIdx_cons_of_ne a t ha] at h
        cases hk : subIdx NULLB t with
        | none => rw [hk] at h; simp at h
        | some k0 =>
            rw [hk] at h
            simp only [Option.map_some'] at h
            have hk0 : k0 + 1 = k := by simpa using h
            have := ih k0 hk
            simp only [List.length_cons]
            omega

theorem remove_one_nat (s : Bytes) (j : Nat) :
    compress.remove s (Nat.cast j : Int) 1 = s.take j ++ s.drop (j + 1) := by
  have h := remove_nat s j 1
  simpa using h

theorem find_append_of_subIdx (p s : Bytes) (k : Nat) (h : subIdx NULLB s = some k) :
    compress.find (p ++ s) NULLB (Nat.cast p.length : Int) = (Nat.cast (p.length + k) : Int) := by
  unfold compress.find
  have h1 : ¬ ((p.length : Int) < 0) := by simp
  have h2 : ((p.length : Int)).toNat = p.length := Int.toNat_natCast p.length
  simp only [h1, if_false, h2]
  have h3 : (p ++ s).drop p.length = s := drop_len p s
  rw [h3, h]

/-- Replaying codes against a buffer whose prefix is already reconstructed:
when the suffix replay succeeds, the loop succeeds and only rewrites the
suffix. -/
theorem decompressLoop_frame (table : Table) :
    ∀ (cs : List Bytes) (p s r : Bytes), decAux table cs s = some r →
      Compress.decompressLoop table cs (p ++ s) (Nat.cast p.length : Int) = Except.ok (p ++ r) := by
  intro cs
  induction cs with
  | nil =>
      intro p s r h
      simp only [decAux, Option.some.injEq] at h
      subst h
      rfl
  | cons c rest ih =>
      intro p s r h
      simp only [decAux] at h
      cases hval : List.lookup c table with
      | none => rw [hval] at h; simp at h
      | some val =>
          rw [hval] at h
          simp only [Option.some_bind] at h
          cases hk : subIdx NULLB s with
          | none => rw [hk] at h; simp at h
          | some k =>
              rw [hk] at h
              simp only [Option.some_bind] at h
              cases hr : decAux table rest (s.drop (k + 1)) with
              | none => rw [hr] at h; simp at h
              | some r0 =>
                  rw [hr] at h
                  simp only [Option.map_some', Option.some.injEq] at h
                  subst h
                  have hk1 : k + 1 ≤ s.length := subIdx_some_le s k hk
                  have hlen : (p ++ s.take k).length = p.length + k := by
                    simp only [List.length_append, List.length_take]
                    omega
                  simp only [Compress.decompressLoop, hval]
                  rw [find_append_of_subIdx p s k hk]
                  rw [remove_one_nat]
                  rw [take_len_add p s k]
                  rw [show p.length + k + 1 = p.length + (k + 1) from by omega]
                  rw [drop_len_add p s (k + 1)]
                  rw [show p ++ s.take k ++ s.drop (k + 1)
                        = (p ++ s.take k) ++ s.drop (k + 1) from by
                      simp [List.append_assoc]]
                  rw [show (Nat.cast (p.length + k) : Int)
                        = (Nat.cast (p ++ s.take k).length : Int) from by rw [hlen]]
                  rw [insert_nat]
                  rw [take_len, drop_len]
                  have hc : (Nat.cast (p ++ s.take k).length : Int) + (Nat.cast val.length : Int)
                      = (Nat.cast ((p ++ s.take k) ++ val).length : Int) := by
                    rw [List.length_append (p ++ s.take k) val]
                    exact (Nat.cast_add _ _).symm
                  rw [hc]
                  have h2 := ih ((p ++ s.take k) ++ val) (s.drop (k + 1)) r0 hr
                  rw [show (p ++ s.take k) ++ val ++ s.drop (k + 1)
                        = ((p ++ s.take k) ++ val) ++ s.drop (k + 1) from by
                      simp [List.append_assoc]]
                  rw [h2]
                  simp [List.append_assoc]

/-- Post-processing that frames a suffix-run of the encoder back into the full
buffer: prefix the processed bytes and the already-emitted codes. -/
def encShift (pre : Bytes) (cs0 : List Bytes) (r : Except DErr (Bytes × List Bytes)) :
    Except DErr (Bytes × List Bytes) :=
  match r with
  | Except.error e => Except.error e
  | Except.ok (out, c2) => Except.ok (pre ++ out, cs0 ++ c2)

@[simp] theorem encShift_error (pre : Bytes) (cs0 : List Bytes) (e : DErr) :
    encShift pre cs0 (Except.error e) = Except.error e := rfl

@[simp] theorem encShift_ok (pre : Bytes) (cs0 : List Bytes) (out : Bytes) (c2 : List Bytes) :
    encShift pre cs0 (Except.ok (out, c2)) = Except.ok (pre ++ out, cs0 ++ c2) := rfl

theorem pySlice_window (b : Bytes) (i l : Nat) :
    pySlice b (Nat.cast i : Int) (Nat.cast (i + l) : Int) = (b.drop i).take l := by
  rw [pySlice_nat]
  congr 1
  omega

theorem encAux_short (inv : Table) (s : Bytes) (h : s.length < 4) :
    encAux inv s = Except.ok (s, []) := by
  rcases s with _ | ⟨a, s⟩
  · rfl
  rcases s with _ | ⟨b, s⟩
  · rfl
  rcases s with _ | ⟨c, s⟩
  · rfl
  rcases s with _ | ⟨d, s⟩
  · rfl
  · simp only [List.length_cons, List.length_nil] at h
    omega

theorem exists_four_cons (s : Bytes) (h : 4 ≤ s.length) :
    ∃ a b c d t, s = a :: b :: c :: d :: t := by
  rcases s with _ | ⟨a, s⟩
  · simp only [List.length_nil] at h; omega
  rcases s with _ | ⟨b, s⟩
  · simp only [List.length_cons, List.length_nil] at h; omega
  rcases s with _ | ⟨c, s⟩
  · simp only [List.length_cons, List.length_nil] at h; omega
  rcases s with _ | ⟨d, s⟩
  · simp only [List.length_cons, List.length_nil] at h; omega
  · exact ⟨a, b, c, d, s, rfl⟩

theorem compressLoop_stop (inv : Table) (b : Bytes) (i : Nat) (cs : List Bytes)
    (hg : ¬ i + Compress.VALUE_SIZE < b.length) :
    Compress.compressLoop inv b i cs = Except.ok (b, cs) := by
  rw [Compress.compressLoop.eq_def]
  rw [dif_neg hg]
  rfl

/-- The faithful index-based scan loop equals the suffix-form encoder applied
to the part of the buffer at and after the cursor. -/
theorem compressLoop_eq_fuel (n : Nat) :
    ∀ (inv : Table) (b : Bytes) (i : Nat) (cs : List Bytes), b.length - i ≤ n →
      Compress.compressLoop inv b i cs = encShift (b.take i) cs (encAux inv (b.drop i)) := by
  induction n with
  | zero =>
      intro inv b i cs hn
      have hg : ¬ i + Compress.VALUE_SIZE < b.length := by
        simp only [Compress.VALUE_SIZE]; omega
      rw [compressLoop_stop inv b i cs hg]
      rw [encAux_short inv (b.drop i) (by simp only [List.length_drop]; omega)]
      simp only [encShift_ok, List.take_append_drop, List.append_nil]
  | succ n ih =>
      intro inv b i cs hn
      by_cases hg : i + Compress.VALUE_SIZE < b.length
      · have hg3 : i + 3 < b.length := by simpa [Compress.VALUE_SIZE] using hg
        have hlen4 : 4 ≤ (b.drop i).length := by simp only [List.length_drop]; omega
        obtain ⟨s0, s1, s2, s3, t, hsplit⟩ := exists_four_cons (b.drop i) hlen4
        have hbl2 : b.length - i = t.length + 4 := by
          have h4 : (b.drop i).length = t.length + 4 := by
            rw [hsplit]
            simp only [List.length_cons]
          rw [List.length_drop] at h4
          exact h4
        have htake_len : (b.take i).length = i := by
          simp only [List.length_take]; omega
        have hbs : pySlice b (Nat.cast i : Int) (Nat.cast (i + 3) : Int) = [s0, s1, s2] := by
          rw [pySlice_window, hsplit]; rfl
        have hbyte : pySlice b (Nat.cast i : Int) (Nat.cast (i + 1) : Int) = [s0] := by
          rw [pySlice_window, hsplit]; rfl
        have hdrop3 : b.drop (i + 3) = s3 :: t := by
          rw [← List.drop_drop, hsplit]; rfl
        have hdrop1 : b.drop (i + 1) = s1 :: s2 :: s3 :: t := by
          rw [← List.drop_drop, hsplit]; rfl
        have htake1 : b.take (i + 1) = b.take i ++ [s0] := by
          rw [List.take_add, hsplit]; rfl
        rw [Compress.compressLoop.eq_def]
        rw [dif_pos hg]
        simp only [Compress.VALUE_SIZE, Compress.KEY_SIZE, hbs, hbyte, NULLB]
        rw [hsplit]
        cases hlook : List.lookup [s0, s1, s2] inv with
        | some code =>
            simp only [hlook, encAux]
            rw [remove_nat, insert_nat]
            have e1 : (b.take i ++ b.drop (i + 3)).take i = b.take i := by
              have h0 := take_len (b.take i) (b.drop (i + 3))
              rw [htake_len] at h0
              exact h0
            have e2 : (b.take i ++ b.drop (i + 3)).drop i = b.drop (i + 3) := by
              have h0 := drop_len (b.take i) (b.drop (i + 3))
              rw [htake_len] at h0
              exact h0
            rw [e1, e2, hdrop3]
            have hmeas : (b.take i ++ [0] ++ (s3 :: t)).length - (i + 1) ≤ n := by
              simp only [List.length_append, htake_len, List.length_cons, List.length_nil]
              omega
            rw [ih inv (b.take i ++ [0] ++ (s3 :: t)) (i + 1) (cs ++ [code]) hmeas]
            have hassoc : b.take i ++ [0] ++ (s3 :: t) = (b.take i ++ [0]) ++ (s3 :: t) := by
              simp [List.append_assoc]
            have hlen01 : i + 1 = (b.take i ++ [0]).length + 0 := by
              simp [List.length_append, htake_len]
            have hd : (b.take i ++ [0] ++ (s3 :: t)).drop (i + 1) = s3 :: t := by
              rw [hassoc, hlen01, drop_len_add]
              rfl
            have ht : (b.take i ++ [0] ++ (s3 :: t)).take (i + 1) = b.take i ++ [0] := by
              rw [hassoc, hlen01, take_len_add]
              simp
            rw [hd, ht]
            cases hrec : encAux inv (s3 :: t) with
            | error e => simp [hrec, encShift, Bind.bind, Except.bind]
            | ok pr =>
                obtain ⟨out, c2⟩ := pr
                simp [hrec, encShift, Bind.bind, Except.bind, pure, Except.pure, List.append_assoc]
        | none =>
            simp only [hlook]
            by_cases hs0 : s0 = 0
            · subst hs0
              simp only [beq_self_eq_true, if_true]
              cases hlook0 : List.lookup [0] inv with
              | some code0 =>
                  simp only [hlook0, encAux, hlook]
                  have hmeas : b.length - (i + 1) ≤ n := by omega
                  rw [ih inv b (i + 1) (cs ++ [code0]) hmeas]
                  rw [hdrop1, htake1]
                  simp only [if_true]
                  cases hrec : encAux inv (s1 :: s2 :: s3 :: t) with
                  | error e => simp [hrec, encShift, Bind.bind, Except.bind]
                  | ok pr =>
                      obtain ⟨out, c2⟩ := pr
                      simp [hrec, encShift, Bind.bind, Except.bind, pure, Except.pure, List.append_assoc]
              | none =>
                  simp only [hlook0, encAux, hlook]
                  simp only [if_true]
                  simp [encShift, throw, throwThe, MonadExceptOf.throw]
            · have hsne : (([s0] : Bytes) == [0]) = false := by
                simp [hs0]
              simp only [hsne, Bool.false_eq_true, if_false]
              simp only [encAux, hlook, if_neg hs0]
              have hmeas : b.length - (i + 1) ≤ n := by omega
              rw [ih inv b (i + 1) cs hmeas]
              rw [hdrop1, htake1]
              cases hrec : encAux inv (s1 :: s2 :: s3 :: t) with
              | error e => simp [hrec, encShift, Bind.bind, Except.bind]
              | ok pr =>
                  obtain ⟨out, c2⟩ := pr
                  simp only [hrec, encShift, Except.bind]
                  simp [List.append_assoc]
      · rw [compressLoop_stop inv b i cs hg]
        have : (b.drop i).length < 4 := by
          simp only [List.length_drop]
          simp only [Compress.VALUE_SIZE] at hg
          omega
        rw [encAux_short inv (b.drop i) this]
        simp

/-- The scan loop from cursor 0 equals the suffix-form encoder on the whole
payload. -/
theorem compressLoop_eq (inv : Table) (b : Bytes) (cs : List Bytes) :
    Compress.compressLoop inv b 0 cs = encShift [] cs (encAux inv b) := by
  have h := compressLoop_eq_fuel b.length inv b 0 cs (by omega)
  simpa using h

/-- A nonzero literal byte in front of the remaining literal stream passes
through the decoder untouched: no code can consume it. -/
theorem decAux_cons_ne (table : Table) (cs : List Bytes) (a : Nat) (out : Bytes)
    (ha : a ≠ 0) :
    decAux table cs (a :: out) = (decAux table cs out).map (fun r => a :: r) := by
  cases cs with
  | nil => rfl
  | cons c rest =>
      simp only [decAux]
      cases hval : List.lookup c table with
      | none => rfl
      | some val =>
          simp only [Option.some_bind]
          rw [subIdx_cons_of_ne a out ha]
          cases hk : subIdx NULLB out with
          | none => rfl
          | some k =>
              simp only [Option.map_some', Option.some_bind]
              have hdrop : (a :: out).drop (k + 1 + 1) = out.drop (k + 1) := rfl
              have htake : (a :: out).take (k + 1) = a :: out.take k := rfl
              rw [hdrop, htake]
              cases hrec : decAux table rest (out.drop (k + 1)) with
              | none => rfl
              | some r => simp

/-- Round trip at the suffix level: whatever the encoder emits, the decoder
replays back to the original suffix, provided the inverted table sends the
1-byte NULL to the reserved code and is a right inverse of the forward table. -/
theorem encAux_decAux (table inv : Table)
    (h1 : List.lookup [0] inv = some ([0] : Bytes))
    (h2 : ∀ w c, List.lookup w inv = some c → List.lookup c table = some w) :
    ∀ (n : Nat) (s : Bytes), s.length ≤ n →
      ∃ out c2, encAux inv s = Except.ok (out, c2) ∧ decAux table c2 out = some s := by
  intro n
  induction n with
  | zero =>
      intro s hs
      have hnil : s = [] := List.eq_nil_of_length_eq_zero (by omega)
      subst hnil
      exact ⟨[], [], rfl, rfl⟩
  | succ n ih =>
      intro s hs
      by_cases hlen : s.length < 4
      · exact ⟨s, [], encAux_short inv s hlen, rfl⟩
      · obtain ⟨a, b, c, d, t, rfl⟩ := exists_four_cons s (by omega)
        have hlcons : (a :: b :: c :: d :: t).length = t.length + 4 := by
          simp only [List.length_cons]
        cases hlook : List.lookup [a, b, c] inv with
        | some code =>
            obtain ⟨out, c2, henc, hdec⟩ := ih (d :: t) (by
              simp only [List.length_cons]
              rw [hlcons] at hs
              omega)
            refine ⟨0 :: out, code :: c2, ?_, ?_⟩
            · simp [encAux, hlook, henc, Bind.bind, Except.bind, pure, Except.pure]
            · have hval : List.lookup code table = some [a, b, c] := h2 _ _ hlook
              simp only [decAux, hval, subIdx_zero_cons, Option.some_bind]
              have hdrop : (0 :: out).drop (0 + 1) = out := rfl
              have htake : (0 :: out).take 0 = [] := rfl
              rw [hdrop, htake, hdec]
              simp
        | none =>
            by_cases ha : a = 0
            · subst ha
              obtain ⟨out, c2, henc, hdec⟩ := ih (b :: c :: d :: t) (by
                simp only [List.length_cons]
                rw [hlcons] at hs
                omega)
              refine ⟨0 :: out, [0] :: c2, ?_, ?_⟩
              · simp [encAux, hlook, h1, henc, Bind.bind, Except.bind, pure, Except.pure]
              · have hval0 : List.lookup ([0] : Bytes) table = some [0] := h2 _ _ h1
                simp only [decAux, hval0, subIdx_zero_cons, Option.some_bind]
                have hdrop : (0 :: out).drop (0 + 1) = out := rfl
                have htake : (0 :: out).take 0 = [] := rfl
                rw [hdrop, htake, hdec]
                simp
            · obtain ⟨out, c2, henc, hdec⟩ := ih (b :: c :: d :: t) (by
                simp only [List.length_cons]
                rw [hlcons] at hs
                omega)
              refine ⟨a :: out, c2, ?_, ?_⟩
              · simp [encAux, hlook, if_neg ha, henc, Bind.bind, Except.bind, pure, Except.pure]
              · rw [decAux_cons_ne table c2 a out ha, hdec]
                rfl

/-- The encoder never lengthens the literal stream and never emits more codes
than it scanned bytes. -/
theorem encAux_length (inv : Table) :
    ∀ (n : Nat) (s out : Bytes) (c2 : List Bytes), s.length ≤ n →
      encAux inv s = Except.ok (out, c2) → out.length ≤ s.length ∧ c2.length ≤ s.length := by
  intro n
  induction n with
  | zero =>
      intro s out c2 hs henc
      have hnil : s = [] := List.eq_nil_of_length_eq_zero (by omega)
      subst hnil
      cases henc
      simp
  | succ n ih =>
      intro s out c2 hs henc
      by_cases hlen : s.length < 4
      · rw [encAux_short inv s hlen] at henc
        cases henc
        simp
      · obtain ⟨a, b, c, d, t, rfl⟩ := exists_four_cons s (by omega)
        have hlcons : (a :: b :: c :: d :: t).length = t.length + 4 := by
          simp only [List.length_cons]
        rw [hlcons]
        rw [hlcons] at hs
        cases hlook : List.lookup [a, b, c] inv with
        | some code =>
            rw [show encAux inv (a :: b :: c :: d :: t)
                  = (do
                      let r ← encAux inv (d :: t)
                      pure (0 :: r.1, code :: r.2)) from by
                simp [encAux, hlook]]
              at henc
            cases hrec : encAux inv (d :: t) with
            | error e => rw [hrec] at henc; simp [Bind.bind, Except.bind] at henc
            | ok pr =>
                rw [hrec] at henc
                simp only [Bind.bind, Except.bind, pure, Except.pure, Except.ok.injEq] at henc
                obtain ⟨h1, h2⟩ := Prod.mk.injEq .. ▸ henc
                obtain ⟨out0, c20⟩ := pr
                have hih := ih (d :: t) out0 c20 (by simp only [List.length_cons]; omega) hrec
                simp only [List.length_cons] at hih
                cases henc
                simp only [List.length_cons]
                omega
        | none =>
            by_cases ha : a = 0
            · subst ha
              cases hlook0 : List.lookup ([0] : Bytes) inv with
              | some code0 =>
                  rw [show encAux inv (0 :: b :: c :: d :: t)
                        = (do
                            let r ← encAux inv (b :: c :: d :: t)
                            pure (0 :: r.1, code0 :: r.2)) from by
                      simp [encAux, hlook, hlook0]]
                    at henc
                  cases hrec : encAux inv (b :: c :: d :: t) with
                  | error e => rw [hrec] at henc; simp [Bind.bind, Except.bind] at henc
                  | ok pr =>
                      rw [hrec] at henc
                      obtain ⟨out0, c20⟩ := pr
                      have hih := ih (b :: c :: d :: t) out0 c20
                        (by simp only [List.length_cons]; omega) hrec
                      simp only [List.length_cons] at hih
                      simp only [Bind.bind, Except.bind, pure, Except.pure,
                        Except.ok.injEq] at henc
                      cases henc
                      simp only [List.length_cons]
                      omega
              | none =>
                  rw [show encAux inv (0 :: b :: c :: d :: t) = Except.error DErr.keyError from by
                      simp [encAux, hlook, hlook0, throw, throwThe, MonadExceptOf.throw]]
                    at henc
                  cases henc
            · rw [show encAux inv (a :: b :: c :: d :: t)
                    = (do
                        let r ← encAux inv (b :: c :: d :: t)
                        pure (a :: r.1, r.2)) from by
                  simp [encAux, hlook, if_neg ha]]
                at henc
              cases hrec : encAux inv (b :: c :: d :: t) with
              | error e => rw [hrec] at henc; simp [Bind.bind, Except.bind] at henc
              | ok pr =>
                  rw [hrec] at henc
                  obtain ⟨out0, c20⟩ := pr
                  have hih := ih (b :: c :: d :: t) out0 c20
                    (by simp only [List.length_cons]; omega) hrec
                  simp only [List.length_cons] at hih
                  simp only [Bind.bind, Except.bind, pure, Except.pure,
                    Except.ok.injEq] at henc
                  cases henc
                  simp only [List.length_cons]
                  omega

/-! One-step unfolding equations for encAux, used by the remaining inductions. -/

theorem encAux_cons_match (inv : Table) (a b c d : Nat) (t : Bytes) (code : Bytes)
    (hlook : List.lookup [a, b, c] inv = some code) :
    encAux inv (a :: b :: c :: d :: t)
      = (do
          let r ← encAux inv (d :: t)
          pure (0 :: r.1, code :: r.2)) := by
  simp [encAux, hlook]

theorem encAux_cons_null (inv : Table) (b c d : Nat) (t : Bytes) (code0 : Bytes)
    (hlook : List.lookup [0, b, c] inv = none)
    (h0 : List.lookup ([0] : Bytes) inv = some code0) :
    encAux inv (0 :: b :: c :: d :: t)
      = (do
          let r ← encAux inv (b :: c :: d :: t)
          pure (0 :: r.1, code0 :: r.2)) := by
  simp [encAux, hlook, h0]

theorem encAux_cons_nullerr (inv : Table) (b c d : Nat) (t : Bytes)
    (hlook : List.lookup [0, b, c] inv = none)
    (h0 : List.lookup ([0] : Bytes) inv = none) :
    encAux inv (0 :: b :: c :: d :: t) = Except.error DErr.keyError := by
  simp [encAux, hlook, h0, throw, throwThe, MonadExceptOf.throw]

theorem encAux_cons_skip (inv : Table) (a b c d : Nat) (t : Bytes)
    (ha : a ≠ 0) (hlook : List.lookup [a, b, c] inv = none) :
    encAux inv (a :: b :: c :: d :: t)
      = (do
          let r ← encAux inv (b :: c :: d :: t)
          pure (a :: r.1, r.2)) := by
  simp [encAux, hlook, if_neg ha]

/-- Every code the encoder emits is the image of some successful lookup in the
inverted table. -/
theorem encAux_codes (inv : Table) :
    ∀ (n : Nat) (s out : Bytes) (c2 : List Bytes), s.length ≤ n →
      encAux inv s = Except.ok (out, c2) →
      ∀ cd ∈ c2, ∃ w, List.lookup w inv = some cd := by
  intro n
  induction n with
  | zero =>
      intro s out c2 hs henc
      have hnil : s = [] := List.eq_nil_of_length_eq_zero (by omega)
      subst hnil
      cases henc
      simp
  | succ n ih =>
      intro s out c2 hs henc
      by_cases hlen : s.length < 4
      · rw [encAux_short inv s hlen] at henc
        cases henc
        simp
      · obtain ⟨a, b, c, d, t, rfl⟩ := exists_four_cons s (by omega)
        have hlcons : (a :: b :: c :: d :: t).length = t.length + 4 := by
          simp only [List.length_cons]
        rw [hlcons] at hs
        cases hlook : List.lookup [a, b, c] inv with
        | some code =>
            rw [encAux_cons_match inv a b c d t code hlook] at henc
            cases hrec : encAux inv (d :: t) with
            | error e => rw [hrec] at henc; simp [Bind.bind, Except.bind] at henc
            | ok pr =>
                rw [hrec] at henc
                obtain ⟨out0, c20⟩ := pr
                simp only [Bind.bind, Except.bind, pure, Except.pure,
                  Except.ok.injEq, Prod.mk.injEq] at henc
                obtain ⟨hout, hcs⟩ := henc
                subst hout
                subst hcs
                intro cd hcd
                rcases List.mem_cons.mp hcd with h | h
                · subst h
                  exact ⟨[a, b, c], hlook⟩
                · exact ih (d :: t) out0 c20 (by simp only [List.length_cons]; omega)
                    hrec cd h
        | none =>
            by_cases ha : a = 0
            · subst ha
              cases hlook0 : List.lookup ([0] : Bytes) inv with
              | some code0 =>
                  rw [encAux_cons_null inv b c d t code0 hlook hlook0] at henc
                  cases hrec : encAux inv (b :: c :: d :: t) with
                  | error e => rw [hrec] at henc; simp [Bind.bind, Except.bind] at henc
                  | ok pr =>
                      rw [hrec] at henc
                      obtain ⟨out0, c20⟩ := pr
                      simp only [Bind.bind, Except.bind, pure, Except.pure,
                        Except.ok.injEq, Prod.mk.injEq] at henc
                      obtain ⟨hout, hcs⟩ := henc
                      subst hout
                      subst hcs
                      intro cd hcd
                      rcases List.mem_cons.mp hcd with h | h
                      · subst h
                        exact ⟨[0], hlook0⟩
                      · exact ih (b :: c :: d :: t) out0 c20
                          (by simp only [List.length_cons]; omega) hrec cd h
              | none =>
                  rw [encAux_cons_nullerr inv b c d t hlook hlook0] at henc
                  cases henc
            · rw [encAux_cons_skip inv a b c d t ha hlook] at henc
              cases hrec : encAux inv (b :: c :: d :: t) with
              | error e => rw [hrec] at henc; simp [Bind.bind, Except.bind] at henc
              | ok pr =>
                  rw [hrec] at henc
                  obtain ⟨out0, c20⟩ := pr
                  simp only [Bind.bind, Except.bind, pure, Except.pure,
                    Except.ok.injEq, Prod.mk.injEq] at henc
                  obtain ⟨hout, hcs⟩ := henc
                  subst hout
                  subst hcs
                  intro cd hcd
                  exact ih (b :: c :: d :: t) out0 c20
                    (by simp only [List.length_cons]; omega) hrec cd hcd

theorem getLast?_cons_of_ne (x : Nat) (l : Bytes) (hl : l ≠ []) :
    (x :: l).getLast? = l.getLast? := by
  cases l with
  | nil => exact absurd rfl hl
  | cons y ys => exact List.getLast?_cons_cons

/-- The final byte of the payload always survives as the final byte of the
literal stream: no checked window ever covers the last position. -/
theorem encAux_last (inv : Table) :
    ∀ (n : Nat) (s out : Bytes) (c2 : List Bytes), s.length ≤ n →
      encAux inv s = Except.ok (out, c2) →
      out.getLast? = s.getLast? ∧ (s ≠ [] → out ≠ []) := by
  intro n
  induction n with
  | zero =>
      intro s out c2 hs henc
      have hnil : s = [] := List.eq_nil_of_length_eq_zero (by omega)
      subst hnil
      cases henc
      exact ⟨rfl, fun h => absurd rfl h⟩
  | succ n ih =>
      intro s out c2 hs henc
      by_cases hlen : s.length < 4
      · rw [encAux_short inv s hlen] at henc
        cases henc
        exact ⟨rfl, fun h => h⟩
      · obtain ⟨a, b, c, d, t, rfl⟩ := exists_four_cons s (by omega)
        have hlcons : (a :: b :: c :: d :: t).length = t.length + 4 := by
          simp only [List.length_cons]
        rw [hlcons] at hs
        have hslast : (a :: b :: c :: d :: t).getLast? = (d :: t).getLast? := by
          rw [List.getLast?_cons_cons, List.getLast?_cons_cons, List.getLast?_cons_cons]
        have hslast1 : (a :: b :: c :: d :: t).getLast? = (b :: c :: d :: t).getLast? := by
          rw [List.getLast?_cons_cons]
        cases hlook : List.lookup [a, b, c] inv with
        | some code =>
            rw [encAux_cons_match inv a b c d t code hlook] at henc
            cases hrec : encAux inv (d :: t) with
            | error e => rw [hrec] at henc; simp [Bind.bind, Except.bind] at henc
            | ok pr =>
                rw [hrec] at henc
                obtain ⟨out0, c20⟩ := pr
                simp only [Bind.bind, Except.bind, pure, Except.pure,
                  Except.ok.injEq, Prod.mk.injEq] at henc
                obtain ⟨hout, hcs⟩ := henc
                subst hout
                obtain ⟨hl0, hne0⟩ := ih (d :: t) out0 c20
                  (by simp only [List.length_cons]; omega) hrec
                have hne : out0 ≠ [] := hne0 (by simp)
                refine ⟨?_, fun _ => by simp⟩
                rw [getLast?_cons_of_ne 0 out0 hne, hl0, hslast]
        | none =>
            by_cases ha : a = 0
            · subst ha
              cases hlook0 : List.lookup ([0] : Bytes) inv with
              | some code0 =>
                  rw [encAux_cons_null inv b c d t code0 hlook hlook0] at henc
                  cases hrec : encAux inv (b :: c :: d :: t) with
                  | error e => rw [hrec] at henc; simp [Bind.bind, Except.bind] at henc
                  | ok pr =>
                      rw [hrec] at henc
                      obtain ⟨out0, c20⟩ := pr
                      simp only [Bind.bind, Except.bind, pure, Except.pure,
                        Except.ok.injEq, Prod.mk.injEq] at henc
                      obtain ⟨hout, hcs⟩ := henc
                      subst hout
                      obtain ⟨hl0, hne0⟩ := ih (b :: c :: d :: t) out0 c20
                        (by simp only [List.length_cons]; omega) hrec
                      have hne : out0 ≠ [] := hne0 (by simp)
                      refine ⟨?_, fun _ => by simp⟩
                      rw [getLast?_cons_of_ne 0 out0 hne, hl0, hslast1]
              | none =>
                  rw [encAux_cons_nullerr inv b c d t hlook hlook0] at henc
                  cases henc
            · rw [encAux_cons_skip inv a b c d t ha hlook] at henc
              cases hrec : encAux inv (b :: c :: d :: t) with
              | error e => rw [hrec] at henc; simp [Bind.bind, Except.bind] at henc
              | ok pr =>
                  rw [hrec] at henc
                  obtain ⟨out0, c20⟩ := pr
                  simp only [Bind.bind, Except.bind, pure, Except.pure,
                    Except.ok.injEq, Prod.mk.injEq] at henc
                  obtain ⟨hout, hcs⟩ := henc
                  subst hout
                  obtain ⟨hl0, hne0⟩ := ih (b :: c :: d :: t) out0 c20
                    (by simp only [List.length_cons]; omega) hrec
                  have hne : out0 ≠ [] := hne0 (by simp)
                  refine ⟨?_, fun _ => by simp⟩
                  rw [getLast?_cons_of_ne a out0 hne, hl0, hslast1]

/-! Lemmas about the big-endian integer codec and the length-prefixed framing. -/

theorem natToBE_length (l : Nat) : ∀ n, (natToBE l n).length = l := by
  induction l with
  | zero => intro n; rfl
  | succ l ih =>
      intro n
      simp only [natToBE, List.length_append, ih, List.length_cons, List.length_nil]

theorem fromBE_append (bs : Bytes) (d : Nat) : fromBE (bs ++ [d]) = fromBE bs * 256 + d := by
  simp [fromBE, List.foldl_append]

theorem fromBE_natToBE (l : Nat) : ∀ n, n < 256 ^ l → fromBE (natToBE l n) = n := by
  induction l with
  | zero =>
      intro n h
      have : n = 0 := by simpa using h
      subst this
      rfl
  | succ l ih =>
      intro n h
      have hdiv : n / 256 < 256 ^ l := by
        apply Nat.div_lt_of_lt_mul
        rw [Nat.mul_comm, ← pow_succ]
        exact h
      rw [show natToBE (l + 1) n = natToBE l (n / 256) ++ [n % 256] from rfl]
      rw [fromBE_append, ih (n / 256) hdiv]
      omega

theorem validate_unsigned_ok (bits : Nat) (x : Int) (h0 : 0 ≤ x) (h1 : x < (2 ^ bits : Int)) :
    IntDT.validateValue bits false x = Except.ok () := by
  unfold IntDT.validateValue
  rw [if_neg Bool.false_ne_true, if_pos h0, if_pos h1]
  rfl

theorem pyIntToBytes_unsigned_ok (x : Int) (L : Nat) (h0 : 0 ≤ x)
    (h1 : x < (2 ^ (8 * L) : Int)) :
    pyIntToBytes x L false = Except.ok (natToBE L x.toNat) := by
  unfold pyIntToBytes
  rw [if_neg Bool.false_ne_true, if_pos (And.intro h0 h1)]
  rfl

theorem except_bind_ok {α β : Type} (a : α) (f : α → Except DErr β) :
    (Bind.bind (Except.ok a) f : Except DErr β) = f a := rfl

/-- pure on the Except monad is Except.ok. -/
theorem except_pure_ok {α : Type} (a : α) : (Pure.pure a : Except DErr α) = Except.ok a := rfl

theorem uint32_toBytes_ok (x : Nat) (h : x < 2 ^ 32) :
    uint32.toBytes (Nat.cast x : Int) = Except.ok (natToBE 4 x) := by
  have h0 : (0 : Int) ≤ (Nat.cast x : Int) := by positivity
  have h1 : (Nat.cast x : Int) < (2 ^ 32 : Int) := by exact_mod_cast h
  have h2 : (Nat.cast x : Int) < (2 ^ (8 * (32 / 8)) : Int) := by
    rw [show (2 ^ (8 * (32 / 8)) : Int) = (2 ^ 32 : Int) from by norm_num]
    exact h1
  unfold uint32.toBytes IntDT.toBytes
  rw [validate_unsigned_ok 32 (Nat.cast x : Int) h0 h1, except_bind_ok]
  rw [pyIntToBytes_unsigned_ok (Nat.cast x : Int) (32 / 8) h0 h2]
  rw [Int.toNat_natCast]

theorem seq_toBytes_ok (x : Bytes) (h : x.length < 2 ^ 32) :
    Sequence.toBytes x = Except.ok (natToBE 4 x.length ++ x) := by
  unfold Sequence.toBytes
  rw [uint32_toBytes_ok x.length h, except_bind_ok]
  rfl

theorem pow256_4 : (256 : Nat) ^ 4 = 2 ^ 32 := by norm_num

theorem seq_fromBytes_concat (x rest : Bytes) (h : x.length < 2 ^ 32) :
    Sequence.fromBytes ⟨natToBE 4 x.length ++ (x ++ rest)⟩ = (x, ⟨rest⟩) := by
  have hlen : (natToBE 4 x.length).length = 4 := natToBE_length 4 x.length
  have htake : (natToBE 4 x.length ++ (x ++ rest)).take 4 = natToBE 4 x.length := by
    have h0 := take_len (natToBE 4 x.length) (x ++ rest)
    rw [hlen] at h0
    exact h0
  have hdrop : (natToBE 4 x.length ++ (x ++ rest)).drop 4 = x ++ rest := by
    have h0 := drop_len (natToBE 4 x.length) (x ++ rest)
    rw [hlen] at h0
    exact h0
  have hfrom : fromBE (natToBE 4 x.length) = x.length := by
    apply fromBE_natToBE
    rw [pow256_4]
    exact h
  simp only [Sequence.fromBytes, uint32.fromBytes, IntDT.fromBytes, Buffer.read,
    pyFromBytes]
  rw [show (32 : Nat) / 8 = 4 from rfl]
  rw [htake, hdrop, hfrom]
  simp only [Bool.false_eq_true, false_and, if_false, Int.toNat_natCast]
  rw [take_len, drop_len]

theorem compressStruct_toBytes_ok (l1 l2 : Bytes)
    (h1 : l1.length < 2 ^ 32) (h2 : l2.length < 2 ^ 32) :
    compressStruct.toBytes [l1, l2]
      = Except.ok ((natToBE 4 l1.length ++ l1) ++ (natToBE 4 l2.length ++ l2)) := by
  unfold compressStruct.toBytes
  rw [if_pos (show ([l1, l2] : List Bytes).length = 2 from rfl)]
  rw [show ([l1, l2] : List Bytes).getD 0 [] = l1 from rfl]
  rw [show ([l1, l2] : List Bytes).getD 1 [] = l2 from rfl]
  rw [seq_toBytes_ok l1 h1, except_bind_ok, seq_toBytes_ok l2 h2, except_bind_ok]
  rfl

theorem compressStruct_fromBytes_concat (l1 l2 : Bytes)
    (h1 : l1.length < 2 ^ 32) (h2 : l2.length < 2 ^ 32) :
    compressStruct.fromBytes ((natToBE 4 l1.length ++ l1) ++ (natToBE 4 l2.length ++ l2))
      = (l1, l2) := by
  rw [show (natToBE 4 l1.length ++ l1) ++ (natToBE 4 l2.length ++ l2)
        = natToBE 4 l1.length ++ (l1 ++ (natToBE 4 l2.length ++ l2)) from by
      simp [List.append_assoc]]
  simp only [compressStruct.fromBytes]
  rw [seq_fromBytes_concat l1 (natToBE 4 l2.length ++ l2) h1]
  rw [show natToBE 4 l2.length ++ l2 = natToBE 4 l2.length ++ (l2 ++ []) from by simp]
  rw [seq_fromBytes_concat l2 [] h2]

/-! Splitting the joined code stream back into KEY_SIZE chunks. -/

theorem range_take_one (s : Bytes) :
    (List.range s.length).map (fun i => (s.drop i).take 1) = s.map (fun x => [x]) := by
  induction s with
  | nil => rfl
  | cons x xs ih =>
      rw [List.length_cons, List.range_succ_eq_map]
      simp only [List.map_cons, List.map_map]
      congr 1

theorem flatten_singletons (cs : List Bytes) (h : ∀ c ∈ cs, c.length = 1) :
    cs.flatten.map (fun x => [x]) = cs := by
  induction cs with
  | nil => rfl
  | cons c rest ih =>
      have hc : c.length = 1 := h c (by simp)
      obtain ⟨x, rfl⟩ := List.length_eq_one.mp hc
      simp only [List.flatten_cons, List.singleton_append, List.map_cons]
      rw [ih (fun c hc => h c (by simp [hc]))]

theorem chunks_flatten (cs : List Bytes) (h : ∀ c ∈ cs, c.length = 1) :
    (List.range cs.flatten.length).map
      (fun i => pySlice cs.flatten (Nat.cast i : Int) (Nat.cast (i + Compress.KEY_SIZE) : Int))
      = cs := by
  have h1 : ∀ i : Nat,
      pySlice cs.flatten (Nat.cast i : Int) (Nat.cast (i + Compress.KEY_SIZE) : Int)
        = (cs.flatten.drop i).take 1 := by
    intro i
    rw [show i + Compress.KEY_SIZE = i + 1 from rfl]
    exact pySlice_window cs.flatten i 1
  rw [List.map_congr_left (fun i _ => h1 i)]
  rw [range_take_one, flatten_singletons cs h]

theorem flatten_length_singletons (cs : List Bytes) (h : ∀ c ∈ cs, c.length = 1) :
    cs.flatten.length = cs.length := by
  induction cs with
  | nil => rfl
  | cons c rest ih =>
      have hc : c.length = 1 := h c (by simp)
      simp only [List.flatten_cons, List.length_append, List.length_cons, hc,
        ih (fun c hc => h c (by simp [hc]))]
      omega


/-! Properties of the stable descending sort used by createTable. -/

theorem insDesc_perm (x : Bytes × Nat) (l : List (Bytes × Nat)) :
    List.Perm (insDesc x l) (x :: l) := by
  induction l with
  | nil => rfl
  | cons y ys ih =>
      rw [insDesc]
      by_cases h : y.2 ≤ x.2
      · rw [if_pos h]
      · rw [if_neg h]
        exact List.Perm.trans (List.Perm.cons y ih) (List.Perm.swap x y ys)

theorem sortDesc_perm (l : List (Bytes × Nat)) : List.Perm (sortDesc l) l := by
  induction l with
  | nil => rfl
  | cons x xs ih =>
      rw [sortDesc]
      exact List.Perm.trans (insDesc_perm x (sortDesc xs)) (List.Perm.cons x ih)

theorem insDesc_sorted (x : Bytes × Nat) (l : List (Bytes × Nat))
    (hl : l.Pairwise (fun a b => b.2 ≤ a.2)) :
    (insDesc x l).Pairwise (fun a b => b.2 ≤ a.2) := by
  induction l with
  | nil => simp [insDesc]
  | cons y ys ih =>
      rw [insDesc]
      rcases List.pairwise_cons.mp hl with ⟨hy, hys⟩
      by_cases h : y.2 ≤ x.2
      · rw [if_pos h]
        refine List.pairwise_cons.mpr ⟨?_, hl⟩
        intro z hz
        rcases List.mem_cons.mp hz with rfl | hz
        · exact h
        · exact le_trans (hy z hz) h
      · rw [if_neg h]
        refine List.pairwise_cons.mpr ⟨?_, ih hys⟩
        intro z hz
        have hz2 : z ∈ x :: ys := (insDesc_perm x ys).mem_iff.mp hz
        rcases List.mem_cons.mp hz2 with rfl | hz2
        · omega
        · exact hy z hz2

theorem sortDesc_sorted (l : List (Bytes × Nat)) :
    (sortDesc l).Pairwise (fun a b => b.2 ≤ a.2) := by
  induction l with
  | nil => simp [sortDesc]
  | cons x xs ih => exact insDesc_sorted x (sortDesc xs) ih

/-! The counting fold of createTable: items are listed in first-seen order with
pairwise-distinct keys, and each count is the number of matching windows. -/

theorem occFold_inv :
    ∀ (ws : List Bytes) (acc : List (Bytes × Nat)) (pre : List Bytes),
      ((acc.map Prod.fst).Nodup) →
      (∀ p ∈ acc, p.2 = pre.count p.1) →
      (∀ w, w ∈ acc.map Prod.fst ↔ w ∈ pre) →
      (((ws.foldl
          (fun acc w =>
            if acc.any (fun p => p.1 == w) then
              acc.map (fun p => if p.1 == w then (p.1, p.2 + 1) else p)
            else acc ++ [(w, 1)])
          acc).map Prod.fst).Nodup)
      ∧ (∀ p ∈ ws.foldl
            (fun acc w =>
              if acc.any (fun p => p.1 == w) then
                acc.map (fun p => if p.1 == w then (p.1, p.2 + 1) else p)
              else acc ++ [(w, 1)])
            acc, p.2 = (pre ++ ws).count p.1)
      ∧ (∀ w, w ∈ (ws.foldl
            (fun acc w =>
              if acc.any (fun p => p.1 == w) then
                acc.map (fun p => if p.1 == w then (p.1, p.2 + 1) else p)
              else acc ++ [(w, 1)])
            acc).map Prod.fst ↔ w ∈ pre ++ ws) := by
  intro ws
  induction ws with
  | nil =>
      intro acc pre h1 h2 h3
      refine ⟨h1, ?_, ?_⟩
      · intro p hp
        rw [List.append_nil]
        exact h2 p hp
      · intro w
        rw [List.append_nil]
        exact h3 w
  | cons w ws ih =>
      intro acc pre h1 h2 h3
      rw [List.foldl_cons]
      by_cases hin : acc.any (fun p => p.1 == w)
      · rw [if_pos hin]
        have hkeys : (acc.map (fun p => if p.1 == w then (p.1, p.2 + 1) else p)).map Prod.fst
            = acc.map Prod.fst := by
          rw [List.map_map]
          apply List.map_congr_left
          intro p _
          simp only [Function.comp_apply]
          split <;> rfl
        have hwin : w ∈ pre := by
          rcases List.any_eq_true.mp hin with ⟨p, hp, hbeq⟩
          have : p.1 = w := by simpa using hbeq
          exact (h3 w).mp (by
            rw [← this]
            exact List.mem_map.mpr ⟨p, hp, rfl⟩)
        have hres := ih (acc.map (fun p => if p.1 == w then (p.1, p.2 + 1) else p))
          (pre ++ [w]) (by rw [hkeys]; exact h1)
          (by
            intro p hp
            rcases List.mem_map.mp hp with ⟨q, hq, hqe⟩
            by_cases hqw : q.1 == w
            · have hqw2 : q.1 = w := by simpa using hqw
              rw [if_pos hqw] at hqe
              subst hqe
              simp only [List.count_append, hqw2]
              rw [h2 q hq, hqw2]
              simp
            · rw [if_neg hqw] at hqe
              subst hqe
              have hqw2 : ¬ q.1 = w := by simpa using hqw
              simp only [List.count_append]
              rw [h2 q hq]
              have : ([w] : List Bytes).count q.1 = 0 := by
                simp [List.count_singleton]
                intro hc
                exact absurd hc.symm hqw2
              omega)
          (by
            intro v
            rw [hkeys, h3 v, List.mem_append, List.mem_singleton]
            constructor
            · intro hv
              exact Or.inl hv
            · intro hv
              rcases hv with hv | hv
              · exact hv
              · rw [hv]
                exact hwin)
        rw [show (pre ++ [w]) ++ ws = pre ++ (w :: ws) from by simp] at hres
        exact hres
      · rw [if_neg hin]
        have hnotin : w ∉ acc.map Prod.fst := by
          intro hmem
          rcases List.mem_map.mp hmem with ⟨p, hp, hpe⟩
          have : acc.any (fun p => p.1 == w) = true :=
            List.any_eq_true.mpr ⟨p, hp, by simp [hpe]⟩
          exact hin this
        have hwpre : w ∉ pre := fun hc => hnotin ((h3 w).mpr hc)
        have hres := ih (acc ++ [(w, 1)]) (pre ++ [w])
          (by
            rw [List.map_append]
            rw [List.nodup_append]
            refine ⟨h1, by simp, ?_⟩
            intro v hv hv2
            simp only [List.map_cons, List.map_nil, List.mem_singleton] at hv2
            rw [hv2] at hv
            exact hnotin hv)
          (by
            intro p hp
            rcases List.mem_append.mp hp with hp | hp
            · have hne : p.1 ≠ w := by
                intro hc
                rw [← hc] at hnotin
                exact hnotin (List.mem_map.mpr ⟨p, hp, rfl⟩)
              simp only [List.count_append]
              rw [h2 p hp]
              have : ([w] : List Bytes).count p.1 = 0 := by
                simp [List.count_singleton]
                intro hc
                exact absurd hc.symm hne
              omega
            · simp only [List.mem_singleton] at hp
              subst hp
              simp only [List.count_append]
              have h0 : pre.count w = 0 := List.count_eq_zero_of_not_mem hwpre
              simp [h0])
          (by
            intro v
            rw [List.map_append, List.mem_append]
            simp only [List.map_cons, List.map_nil, List.mem_singleton]
            rw [h3 v, List.mem_append, List.mem_singleton])
        rw [show (pre ++ [w]) ++ ws = pre ++ (w :: ws) from by simp] at hres
        exact hres

theorem occurrences_spec (b : Bytes) :
    ((Compress.occurrences b).map Prod.fst).Nodup
    ∧ (∀ p ∈ Compress.occurrences b, p.2 = (Compress.windows b).count p.1)
    ∧ (∀ w, w ∈ (Compress.occurrences b).map Prod.fst ↔ w ∈ Compress.windows b) := by
  have h := occFold_inv (Compress.windows b) [] []
    (by simp) (by simp) (by simp)
  simpa [Compress.occurrences] using h

/-- Every counted window is a full VALUE_SIZE-byte slice. -/
theorem windows_length (b : Bytes) : ∀ w ∈ Compress.windows b, w.length = Compress.VALUE_SIZE := by
  intro w hw
  simp only [Compress.windows, List.mem_map, List.mem_range] at hw
  obtain ⟨i, hi, rfl⟩ := hw
  rw [pySlice_window]
  simp only [List.length_take, List.length_drop]
  simp only [Compress.VALUE_SIZE] at hi ⊢
  omega

/-- The ranked occurrence list: sorted by descending count, truncated to 255. -/
def rankedOcc (b : Bytes) : List (Bytes × Nat) :=
  (sortDesc (Compress.occurrences b)).take 255

theorem createTable_def (b : Bytes) :
    Compress.createTable b
      = ([0], [0]) :: (List.range' 1 ((rankedOcc b).length - 1)).map
          (fun i => ([i], ((rankedOcc b).getD (i - 1) ([], 0)).1)) := rfl

theorem rankedOcc_keys_nodup (b : Bytes) : ((rankedOcc b).map Prod.fst).Nodup := by
  have h := (occurrences_spec b).1
  have hperm := (sortDesc_perm (Compress.occurrences b)).map Prod.fst
  have h2 : ((sortDesc (Compress.occurrences b)).map Prod.fst).Nodup := hperm.nodup_iff.mpr h
  rw [rankedOcc, List.map_take]
  exact h2.sublist (List.take_sublist 255 _)

theorem rankedOcc_keys_windows (b : Bytes) :
    ∀ v ∈ (rankedOcc b).map Prod.fst, v ∈ Compress.windows b := by
  intro v hv
  rw [rankedOcc, List.map_take] at hv
  have hv2 : v ∈ (sortDesc (Compress.occurrences b)).map Prod.fst :=
    List.mem_of_mem_take hv
  have hperm := (sortDesc_perm (Compress.occurrences b)).map Prod.fst
  have hv3 : v ∈ (Compress.occurrences b).map Prod.fst := hperm.mem_iff.mp hv2
  exact ((occurrences_spec b).2.2 v).mp hv3

theorem rankedOcc_keys_length (b : Bytes) :
    ∀ v ∈ (rankedOcc b).map Prod.fst, v.length = Compress.VALUE_SIZE := by
  intro v hv
  exact windows_length b v (rankedOcc_keys_windows b v hv)

/-- Lookup of a 1-byte key in the mapped index range. -/
theorem lookup_range_map (g : Nat → Bytes) (j : Nat) :
    ∀ (n s : Nat),
      List.lookup [j] ((List.range' s n).map (fun i => ([i], g i)))
        = if s ≤ j ∧ j < s + n then some (g j) else none := by
  intro n
  induction n with
  | zero =>
      intro s
      rw [if_neg (by omega)]
      rfl
  | succ n ih =>
      intro s
      rw [List.range'_succ, List.map_cons]
      by_cases hj : j = s
      · subst hj
        rw [show List.lookup [j] (([j], g j) :: (List.range' (j + 1) n).map (fun i => ([i], g i)))
              = some (g j) from by simp [List.lookup]]
        rw [if_pos (by omega)]
      · have hbeq : (([j] : Bytes) == [s]) = false := by simp [hj]
        rw [show List.lookup [j] (([s], g s) :: (List.range' (s + 1) n).map (fun i => ([i], g i)))
              = List.lookup [j] ((List.range' (s + 1) n).map (fun i => ([i], g i))) from by
            simp [List.lookup, hbeq]]
        rw [ih (s + 1)]
        by_cases hc : s ≤ j ∧ j < s + (n + 1)
        · rw [if_pos (by omega), if_pos hc]
        · rw [if_neg (by omega), if_neg hc]

theorem createTable_lookup_zero (b : Bytes) :
    List.lookup ([0] : Bytes) (Compress.createTable b) = some [0] := by
  rw [createTable_def]
  simp [List.lookup]

theorem createTable_lookup_code (b : Bytes) (k : Nat) (h1 : 1 ≤ k)
    (h2 : k ≤ (rankedOcc b).length - 1) (h255 : (rankedOcc b).length ≤ 255) :
    List.lookup [k] (Compress.createTable b) = some ((rankedOcc b).getD (k - 1) ([], 0)).1 := by
  rw [createTable_def]
  have hk0 : (([k] : Bytes) == [0]) = false := by
    simp
    omega
  rw [show List.lookup [k] ((([0], [0]) : Bytes × Bytes)
          :: (List.range' 1 ((rankedOcc b).length - 1)).map
              (fun i => ([i], ((rankedOcc b).getD (i - 1) ([], 0)).1)))
        = List.lookup [k] ((List.range' 1 ((rankedOcc b).length - 1)).map
            (fun i => ([i], ((rankedOcc b).getD (i - 1) ([], 0)).1))) from by
      simp [List.lookup, hk0]]
  rw [lookup_range_map]
  rw [if_pos (by omega)]

/-! Generic association-list lookup facts and the shape of createTable. -/

theorem lookup_cons (k : Bytes) (p : Bytes × Bytes) (rest : Table) :
    List.lookup k (p :: rest) = if k == p.1 then some p.2 else List.lookup k rest := by
  cases p with
  | mk a b =>
      cases hbeq : (k == a) with
      | true => simp [List.lookup, hbeq]
      | false => simp [List.lookup, hbeq]

theorem lookup_mem {l : Table} {k v : Bytes} (h : List.lookup k l = some v) : (k, v) ∈ l := by
  induction l with
  | nil => simp [List.lookup] at h
  | cons p rest ih =>
      rw [lookup_cons] at h
      by_cases hbeq : k == p.1
      · rw [if_pos hbeq] at h
        have hk : k = p.1 := by simpa using hbeq
        have hv : p.2 = v := by simpa using h
        rw [hk, ← hv]
        exact List.mem_cons_self _ _
      · rw [if_neg hbeq] at h
        exact List.mem_cons_of_mem p (ih h)

theorem mem_lookup {l : Table} {k v : Bytes} (hn : (l.map Prod.fst).Nodup)
    (h : (k, v) ∈ l) : List.lookup k l = some v := by
  induction l with
  | nil => cases h
  | cons p rest ih =>
      rw [lookup_cons]
      rcases List.mem_cons.mp h with h | h
      · rw [← h]
        simp
      · have hne : k ≠ p.1 := by
          intro hc
          rw [List.map_cons] at hn
          rcases List.nodup_cons.mp hn with ⟨hp, _⟩
          exact hp (hc ▸ List.mem_map.mpr ⟨(k, v), h, rfl⟩)
        rw [if_neg (by simpa using hne)]
        exact ih (by
          rw [List.map_cons] at hn
          exact (List.nodup_cons.mp hn).2) h

theorem createTable_mem (b : Bytes) (c v : Bytes) (h : (c, v) ∈ Compress.createTable b) :
    (c = [0] ∧ v = [0])
    ∨ ∃ k, k < (rankedOcc b).length - 1 ∧ c = [k + 1]
        ∧ v = ((rankedOcc b).getD k ([], 0)).1 := by
  rw [createTable_def] at h
  rcases List.mem_cons.mp h with h | h
  · left
    have := Prod.mk.injEq c v ([0] : Bytes) ([0] : Bytes) ▸ h
    exact ⟨congrArg Prod.fst h, congrArg Prod.snd h⟩
  · right
    rcases List.mem_map.mp h with ⟨i, hi, hie⟩
    have hir : 1 ≤ i ∧ i < 1 + ((rankedOcc b).length - 1) := by
      have := List.mem_range'_1.mp hi
      omega
    refine ⟨i - 1, by omega, ?_, ?_⟩
    · have hc : c = [i] := (congrArg Prod.fst hie).symm
      rw [hc]
      congr 1
      omega
    · exact (congrArg Prod.snd hie).symm

theorem createTable_keys_nodup (b : Bytes) :
    ((Compress.createTable b).map Prod.fst).Nodup := by
  rw [createTable_def]
  rw [List.map_cons, List.map_map]
  have hmap : ((List.range' 1 ((rankedOcc b).length - 1)).map
      ((fun p => p.1) ∘ fun i => (([i] : Bytes), ((rankedOcc b).getD (i - 1) ([], 0)).1)))
      = (List.range' 1 ((rankedOcc b).length - 1)).map (fun i => ([i] : Bytes)) := by
    apply List.map_congr_left
    intro i _
    rfl
  rw [hmap]
  refine List.nodup_cons.mpr ⟨?_, ?_⟩
  · intro hc
    rcases List.mem_map.mp hc with ⟨i, hi, hie⟩
    have := List.mem_range'_1.mp hi
    have h0 : i = 0 := by
      have := congrArg (fun l => List.headD l 1) hie
      simpa using this
    omega
  · refine List.Nodup.map ?_ (List.nodup_range' ..)
    intro i j hij
    simpa using hij

theorem map_getD_take (l : List (Bytes × Nat)) :
    ∀ m, m ≤ l.length →
      (List.range m).map (fun k => (l.getD k ([], 0)).1) = (l.take m).map Prod.fst := by
  intro m
  induction m with
  | zero => intro hm; rfl
  | succ m ih =>
      intro hm
      rw [List.range_succ, List.map_append, ih (by omega)]
      rw [List.take_succ]
      rw [List.map_append]
      congr 1
      have hm2 : m < l.length := by omega
      rw [List.getElem?_eq_getElem hm2]
      simp only [List.map_cons, List.map_nil]
      rw [show l.getD m ([], 0) = l[m] from by
        rw [List.getD_eq_getElem?_getD, List.getElem?_eq_getElem hm2]
        rfl]
      rfl

theorem range'_shift_map (g : Nat → Bytes) (m : Nat) :
    (List.range' 1 m).map (fun i => g (i - 1)) = (List.range m).map g := by
  rw [List.range'_eq_map_range]
  rw [List.map_map]
  apply List.map_congr_left
  intro x _
  simp

theorem createTable_values (b : Bytes) :
    (Compress.createTable b).map Prod.snd
      = [0] :: ((rankedOcc b).take ((rankedOcc b).length - 1)).map Prod.fst := by
  rw [createTable_def]
  rw [List.map_cons, List.map_map]
  congr 1
  have hmap : ((List.range' 1 ((rankedOcc b).length - 1)).map
      ((fun p => p.2) ∘ fun i => (([i] : Bytes), ((rankedOcc b).getD (i - 1) ([], 0)).1)))
      = (List.range' 1 ((rankedOcc b).length - 1)).map
          (fun i => ((rankedOcc b).getD (i - 1) ([], 0)).1) := by
    apply List.map_congr_left
    intro i _
    rfl
  rw [hmap]
  rw [range'_shift_map (fun k => ((rankedOcc b).getD k ([], 0)).1) ((rankedOcc b).length - 1)]
  exact map_getD_take (rankedOcc b) ((rankedOcc b).length - 1) (by omega)

theorem createTable_values_nodup (b : Bytes) :
    ((Compress.createTable b).map Prod.snd).Nodup := by
  rw [createTable_values]
  refine List.nodup_cons.mpr ⟨?_, ?_⟩
  · intro hc
    have hmem : ([0] : Bytes) ∈ (rankedOcc b).map Prod.fst := by
      rw [List.map_take] at hc
      exact List.mem_of_mem_take hc
    have := rankedOcc_keys_length b [0] hmem
    simp [Compress.VALUE_SIZE] at this
  · rw [List.map_take]
    exact (rankedOcc_keys_nodup b).sublist (List.take_sublist _ _)

/-! The inverted dictionary: with pairwise-distinct values, the comprehension
is exactly the entrywise swap of the forward table. -/

theorem invert_go :
    ∀ (t acc : Table), (t.map Prod.snd).Nodup →
      (∀ p ∈ t, p.2 ∉ acc.map Prod.fst) →
      t.foldl (fun a p => dictSet a p.2 p.1) acc = acc ++ t.map Prod.swap := by
  intro t
  induction t with
  | nil => intro acc _ _; simp
  | cons p rest ih =>
      intro acc hv hdisj
      rw [List.foldl_cons]
      have hnotin : p.2 ∉ acc.map Prod.fst := hdisj p (List.mem_cons_self _ _)
      have hany : acc.any (fun q => q.1 == p.2) = false := by
        rw [List.any_eq_false]
        intro q hq
        simp only [beq_iff_eq]
        intro hc
        exact hnotin (List.mem_map.mpr ⟨q, hq, hc⟩)
      rw [show dictSet acc p.2 p.1 = acc ++ [(p.2, p.1)] from by
        unfold dictSet
        rw [hany]
        simp]
      rw [ih (acc ++ [(p.2, p.1)])
        (by
          rw [List.map_cons] at hv
          exact (List.nodup_cons.mp hv).2)
        (by
          intro q hq
          rw [List.map_append, List.mem_append]
          intro hc
          rcases hc with hc | hc
          · exact hdisj q (List.mem_cons_of_mem p hq) hc
          · simp only [List.map_cons, List.map_nil, List.mem_singleton] at hc
            rw [List.map_cons] at hv
            rcases List.nodup_cons.mp hv with ⟨hp2, _⟩
            exact hp2 (hc ▸ List.mem_map.mpr ⟨q, hq, rfl⟩))]
      simp [List.append_assoc, Prod.swap]

theorem invertDict_eq_swap (t : Table) (hv : (t.map Prod.snd).Nodup) :
    invertDict t = t.map Prod.swap := by
  have h := invert_go t [] hv (by simp)
  simpa [invertDict] using h

theorem map_swap_keys (t : Table) : (t.map Prod.swap).map Prod.fst = t.map Prod.snd := by
  rw [List.map_map]
  apply List.map_congr_left
  intro p _
  rfl

/-- Right-inverse property of the generated tables: a successful inverse
lookup comes from a forward entry. -/
theorem table_inv_sound (b : Bytes) (w c : Bytes)
    (h : List.lookup w (invertDict (Compress.createTable b)) = some c) :
    List.lookup c (Compress.createTable b) = some w := by
  rw [invertDict_eq_swap _ (createTable_values_nodup b)] at h
  have hmem := lookup_mem h
  rcases List.mem_map.mp hmem with ⟨p, hp, hpe⟩
  have hc : p.2 = w ∧ p.1 = c := by
    cases p
    cases hpe
    exact ⟨rfl, rfl⟩
  rcases hc with ⟨hw, hcc⟩
  have hmem2 : (c, w) ∈ Compress.createTable b := by
    rw [← hw, ← hcc]
    exact hp
  exact mem_lookup (createTable_keys_nodup b) hmem2

/-- Left-inverse property: every forward entry is found by the inverse lookup. -/
theorem table_inv_complete (b : Bytes) (c v : Bytes)
    (h : List.lookup c (Compress.createTable b) = some v) :
    List.lookup v (invertDict (Compress.createTable b)) = some c := by
  rw [invertDict_eq_swap _ (createTable_values_nodup b)]
  have hmem := lookup_mem h
  apply mem_lookup
  · rw [map_swap_keys]
    exact createTable_values_nodup b
  · exact List.mem_map.mpr ⟨(c, v), hmem, rfl⟩

theorem table_h1 (b : Bytes) :
    List.lookup ([0] : Bytes) (invertDict (Compress.createTable b)) = some [0] :=
  table_inv_complete b [0] [0] (createTable_lookup_zero b)

theorem table_codes_length (b : Bytes) (c v : Bytes)
    (h : (c, v) ∈ Compress.createTable b) : c.length = 1 := by
  rcases createTable_mem b c v h with ⟨hc, _⟩ | ⟨k, _, hc, _⟩
  · rw [hc]; rfl
  · rw [hc]; rfl

theorem table_h3 (b : Bytes) (w c : Bytes)
    (h : List.lookup w (invertDict (Compress.createTable b)) = some c) : c.length = 1 := by
  have h2 := table_inv_sound b w c h
  exact table_codes_length b c w (lookup_mem h2)

/-- Reduction of Compress.compressFinish on a successful packing outcome. -/
theorem compressFinish_ok (st1 : Compress) (packed : Bytes) :
    Compress.compressFinish st1 (Except.ok packed) = Except.ok (st1, packed) := rfl

/-- Reduction of Compress.compressFinish on a failed packing outcome. -/
theorem compressFinish_err (st1 : Compress) (e : DErr) :
    Compress.compressFinish st1 (Except.error e) = Except.error e := rfl

/-- Reduction of Compress.compressPacked on a successful scan-loop outcome. -/
theorem compressPacked_ok (st1 : Compress) (b1 : Bytes) (compressed : List Bytes) :
    Compress.compressPacked st1 (Except.ok (b1, compressed))
      = Compress.compressFinish st1 (compressStruct.toBytes [b1, compressed.flatten]) := rfl

/-- Reduction of Compress.compressPacked on a failed scan-loop outcome. -/
theorem compressPacked_err (st1 : Compress) (e : DErr) :
    Compress.compressPacked st1 (Except.error e) = Except.error e := rfl

/-- One successful run of Compress.compress, described by the outcome of its
scan loop and of the packing step. -/
theorem compress_run (st : Compress) (b out : Bytes) (c2 : List Bytes) (packed : Bytes)
    (hl : Compress.compressLoop (st.addToBuffer b).tableInverted b 0 [] = Except.ok (out, c2))
    (hp : compressStruct.toBytes [out, c2.flatten] = Except.ok packed) :
    Compress.compress st b = Except.ok (st.addToBuffer b, packed) := by
  unfold Compress.compress
  rw [hl, compressPacked_ok, hp, compressFinish_ok]

/-- A failing run of Compress.compress caused by the packing step. -/
theorem compress_run_err (st : Compress) (b out : Bytes) (c2 : List Bytes) (e : DErr)
    (hl : Compress.compressLoop (st.addToBuffer b).tableInverted b 0 [] = Except.ok (out, c2))
    (hp : compressStruct.toBytes [out, c2.flatten] = Except.error e) :
    Compress.compress st b = Except.error e := by
  unfold Compress.compress
  rw [hl, compressPacked_ok, hp, compressFinish_err]

/-- One successful run of Compress.decompress, described by the unpacking of
the two sequences and the outcome of its replay loop. -/
theorem decompress_run (st : Compress) (x lit craw b1 : Bytes)
    (hparse : compressStruct.fromBytes x = (lit, craw))
    (hloop : Compress.decompressLoop st.table
        ((List.range craw.length).map
          (fun i => pySlice craw (Nat.cast i : Int) (Nat.cast (i + Compress.KEY_SIZE) : Int)))
        lit 0
      = Except.ok b1) :
    Compress.decompress st x = Except.ok (st.addToBuffer b1, b1) := by
  have h9 : Compress.decompress st x
      = (do
          let b1 ← Compress.decompressLoop st.table
            ((List.range craw.length).map
              (fun i => pySlice craw (Nat.cast i : Int)
                (Nat.cast (i + Compress.KEY_SIZE) : Int)))
            lit 0
          pure (st.addToBuffer b1, b1)) := by
    unfold Compress.decompress
    rw [hparse]
  rw [h9, hloop]
  simp only [except_bind_ok, except_pure_ok]

/-- Claim C1, amended: the full compress/decompress round trip through the
wire envelope, for payloads below the 4-byte length-prefix bound. -/
theorem c1_roundtrip_amended (hist buf p : Bytes)
    (hmin : Compress.VALUE_SIZE ≤ p.length) (h32 : p.length < 2 ^ 32) :
    ∃ st1 packed st2,
      Compress.compress
          ⟨buf, Compress.createTable hist, invertDict (Compress.createTable hist)⟩ p
        = Except.ok (st1, packed)
      ∧ Compress.decompress st1 packed = Except.ok (st2, p) := by
  obtain ⟨out, c2, henc, hdec⟩ := encAux_decAux (Compress.createTable hist)
    (invertDict (Compress.createTable hist)) (table_h1 hist)
    (fun w c h => table_inv_sound hist w c h) p.length p (le_refl _)
  obtain ⟨hol, hcl⟩ := encAux_length (invertDict (Compress.createTable hist))
    p.length p out c2 (le_refl _) henc
  have hc1 : ∀ cd ∈ c2, cd.length = 1 := by
    intro cd hcd
    obtain ⟨w, hw⟩ := encAux_codes (invertDict (Compress.createTable hist))
      p.length p out c2 (le_refl _) henc cd hcd
    exact table_h3 hist w cd hw
  have hflatlen : c2.flatten.length = c2.length := flatten_length_singletons c2 hc1
  have hb1 : out.length < 2 ^ 32 := by omega
  have hb2 : c2.flatten.length < 2 ^ 32 := by omega
  have hload : Compress.compressLoop (invertDict (Compress.createTable hist)) p 0 []
      = Except.ok (out, c2) := by
    rw [compressLoop_eq, henc]
    simp [encShift]
  have hpack := compressStruct_toBytes_ok out c2.flatten hb1 hb2
  have hcomp := compress_run
    ⟨buf, Compress.createTable hist, invertDict (Compress.createTable hist)⟩ p out c2
    ((natToBE 4 out.length ++ out) ++ (natToBE 4 c2.flatten.length ++ c2.flatten))
    hload hpack
  have hframe : Compress.decompressLoop (Compress.createTable hist) c2 out 0
      = Except.ok p := by
    have h := decompressLoop_frame (Compress.createTable hist) c2 [] out p hdec
    simpa using h
  have hloop : Compress.decompressLoop (Compress.createTable hist)
      ((List.range c2.flatten.length).map
        (fun i => pySlice c2.flatten (Nat.cast i : Int)
          (Nat.cast (i + Compress.KEY_SIZE) : Int)))
      out 0
      = Except.ok p := by
    rw [chunks_flatten c2 hc1]
    exact hframe
  have hdecomp := decompress_run
    (Compress.addToBuffer
      ⟨buf, Compress.createTable hist, invertDict (Compress.createTable hist)⟩ p)
    ((natToBE 4 out.length ++ out) ++ (natToBE 4 c2.flatten.length ++ c2.flatten))
    out c2.flatten p
    (compressStruct_fromBytes_concat out c2.flatten hb1 hb2)
    hloop
  exact ⟨_, _, _, hcomp, hdecomp⟩

/-! Claim C1: the original round-trip claim fails at the uint32 length prefix.
A payload of 2^32 identical nonzero bytes passes the scan loop untouched (no
window of it is a key of the initial inverted table and no byte is 0x00), and
the packing step then rejects its length. -/

theorem except_bind_err {α β : Type} (e : DErr) (f : α → Except DErr β) :
    (Bind.bind (Except.error e) f : Except DErr β) = Except.error e := rfl

theorem validate_unsigned_overflow (bits : Nat) (x : Int) (h0 : 0 ≤ x)
    (h1 : ¬ x < (2 ^ bits : Int)) :
    IntDT.validateValue bits false x
      = Except.error (DErr.assertionError "Integer overflow") := by
  unfold IntDT.validateValue
  rw [if_neg Bool.false_ne_true, if_pos h0, if_neg h1]
  rfl

theorem uint32_toBytes_overflow (x : Int) (h0 : 0 ≤ x) (h1 : ¬ x < (2 ^ 32 : Int)) :
    uint32.toBytes x = Except.error (DErr.assertionError "Integer overflow") := by
  unfold uint32.toBytes IntDT.toBytes
  rw [validate_unsigned_overflow 32 x h0 h1, except_bind_err]

theorem seq_toBytes_overflow (x : Bytes) (h : ¬ (Nat.cast x.length : Int) < (2 ^ 32 : Int)) :
    Sequence.toBytes x = Except.error (DErr.assertionError "Integer overflow") := by
  unfold Sequence.toBytes
  rw [uint32_toBytes_overflow (Nat.cast x.length : Int) (by positivity) h, except_bind_err]

theorem compressStruct_toBytes_overflow (l1 l2 : Bytes)
    (h : ¬ (Nat.cast l1.length : Int) < (2 ^ 32 : Int)) :
    compressStruct.toBytes [l1, l2]
      = Except.error (DErr.assertionError "Integer overflow") := by
  unfold compressStruct.toBytes
  rw [if_pos (show ([l1, l2] : List Bytes).length = 2 from rfl)]
  rw [show ([l1, l2] : List Bytes).getD 0 [] = l1 from rfl]
  rw [seq_toBytes_overflow l1 h, except_bind_err]

/-- A buffer append never changes the inverted table. -/
theorem addToBuffer_tableInverted (st : Compress) (b : Bytes) :
    (st.addToBuffer b).tableInverted = st.tableInverted := rfl

/-- A buffer append never changes the forward table. -/
theorem addToBuffer_table (st : Compress) (b : Bytes) :
    (st.addToBuffer b).table = st.table := rfl

/-- A constant run of the byte 1 passes through the encoder as pure literals
whenever the window [1, 1, 1] is not a key of the inverted table. -/
theorem encAux_replicate_one (inv : Table) (h3 : List.lookup [1, 1, 1] inv = none) :
    ∀ n, encAux inv (List.replicate n 1) = Except.ok (List.replicate n 1, []) := by
  intro n
  induction n using Nat.strong_induction_on with
  | _ n ih =>
    by_cases hlt : n < 4
    · exact encAux_short inv _ (by simpa using hlt)
    · obtain ⟨m, rfl⟩ : ∃ m, n = 4 + m := ⟨n - 4, by omega⟩
      have hrep : List.replicate (4 + m) 1 = 1 :: 1 :: 1 :: 1 :: List.replicate m 1 := by
        rw [List.replicate_add]
        rfl
      have hrep3 : (1 : Nat) :: 1 :: 1 :: List.replicate m 1 = List.replicate (3 + m) 1 := by
        rw [List.replicate_add]
        rfl
      have hrep4 : (1 : Nat) :: List.replicate (3 + m) 1 = List.replicate (4 + m) 1 := by
        rw [← List.replicate_succ]
        congr 1
        omega
      rw [hrep]
      rw [encAux_cons_skip inv 1 1 1 1 (List.replicate m 1) (by norm_num) h3]
      rw [hrep3, ih (3 + m) (by omega), except_bind_ok]
      rw [except_pure_ok, hrep4]


/-- Claim C1, counterexample to the unamended statement: the payload of 2^32
copies of the byte 1 satisfies the claim's length premise, yet compressing it
with the initial (fixed) table does not produce a packet at all — the uint32
length prefix of the envelope rejects the literal stream's length, so no
decompression can return the payload. -/
theorem c1_roundtrip_counterexample :
    Compress.VALUE_SIZE ≤ (List.replicate (2 ^ 32) 1).length ∧
    Compress.compress Compress.init (List.replicate (2 ^ 32) 1)
      = Except.error (DErr.assertionError "Integer overflow") := by
  have h3 : List.lookup [1, 1, 1] Compress.init.tableInverted = none := by decide
  have hload : Compress.compressLoop
      ((Compress.init.addToBuffer (List.replicate (2 ^ 32) 1)).tableInverted)
      (List.replicate (2 ^ 32) 1) 0 []
      = Except.ok (List.replicate (2 ^ 32) 1, []) := by
    have e1 : Compress.compressLoop Compress.init.tableInverted (List.replicate (2 ^ 32) 1) 0 []
        = encShift [] [] (encAux Compress.init.tableInverted (List.replicate (2 ^ 32) 1)) :=
      compressLoop_eq Compress.init.tableInverted (List.replicate (2 ^ 32) 1) []
    rw [encAux_replicate_one Compress.init.tableInverted h3 (2 ^ 32)] at e1
    rw [encShift_ok] at e1
    rw [List.nil_append, List.nil_append] at e1
    exact (addToBuffer_tableInverted Compress.init (List.replicate (2 ^ 32) 1)).symm ▸ e1
  constructor
  · rw [List.length_replicate]
    norm_num [Compress.VALUE_SIZE]
  · have hp : compressStruct.toBytes
        [List.replicate (2 ^ 32) 1, List.flatten ([] : List Bytes)]
        = Except.error (DErr.assertionError "Integer overflow") :=
      compressStruct_toBytes_overflow _ _
        (by rw [List.length_replicate]; push_cast; norm_num)
    exact compress_run_err Compress.init (List.replicate (2 ^ 32) 1)
      (List.replicate (2 ^ 32) 1) [] (DErr.assertionError "Integer overflow") hload hp

/-- Witness for the amended C1 round trip at a concrete input: the payload
[1, 2, 3] with an empty history and buffer. -/
theorem c1_roundtrip_amended_witness :
    ∃ st1 packed st2,
      Compress.compress
          ⟨[], Compress.createTable [], invertDict (Compress.createTable [])⟩ [1, 2, 3]
        = Except.ok (st1, packed)
      ∧ Compress.decompress st1 packed = Except.ok (st2, [1, 2, 3]) :=
  c1_roundtrip_amended [] [] [1, 2, 3] (by decide) (by norm_num)

/-- Claim C2, amended: what the scan loop actually guarantees about the tail.
A payload no longer than VALUE_SIZE passes through entirely untouched, and in
every successful run the literal stream ends with the payload's last byte (the
final byte is never substituted); but bytes strictly inside the last
VALUE_SIZE positions can be consumed by a substitution that starts earlier. -/
theorem c2_tail_literal_amended (inv : Table) (p : Bytes) :
    (p.length ≤ Compress.VALUE_SIZE → Compress.compressLoop inv p 0 [] = Except.ok (p, []))
    ∧ (∀ out c2, Compress.compressLoop inv p 0 [] = Except.ok (out, c2) →
        out.getLast? = p.getLast? ∧ (p ≠ [] → out ≠ [])) := by
  constructor
  · intro hlen
    refine compressLoop_stop inv p 0 [] ?_
    simp only [Compress.VALUE_SIZE] at hlen ⊢
    omega
  · intro out c2 hrun
    rw [compressLoop_eq] at hrun
    cases henc : encAux inv p with
    | error e =>
        rw [henc, encShift_error] at hrun
        exact Except.noConfusion hrun
    | ok pr =>
        obtain ⟨out0, c20⟩ := pr
        rw [henc, encShift_ok, List.nil_append, List.nil_append] at hrun
        injection hrun with h1
        injection h1 with h2 h3
        subst h2
        exact encAux_last inv p.length p out0 c20 (le_refl _) henc

/-- Witness for the amended C2 statement: the one-byte payload [5] is under
VALUE_SIZE long and passes through the loop untouched. -/
theorem c2_tail_literal_amended_witness :
    ([5] : Bytes).length ≤ Compress.VALUE_SIZE ∧
    Compress.compressLoop [([0], [0])] [5] 0 [] = Except.ok ([5], []) :=
  ⟨by decide, (c2_tail_literal_amended [([0], [0])] [5]).1 (by decide)⟩

/-- Claim C2, counterexample to the unamended statement: with the table built
from the history [97, 97, 97, 97, 98], the window [97, 97, 97] is substituted
at cursor 0 of the payload [97, 97, 97, 98], consuming two bytes that lie
inside the payload's last VALUE_SIZE positions: the literal stream [0, 98]
does not end with the payload's last three bytes [97, 97, 98]. -/
theorem c2_tail_literal_counterexample :
    Compress.compressLoop (invertDict (Compress.createTable [97, 97, 97, 97, 98]))
        [97, 97, 97, 98] 0 []
      = Except.ok ([0, 98], [[1]])
    ∧ ¬ List.IsSuffix [97, 97, 98] [0, 98] := by
  constructor
  · rw [compressLoop_eq]
    rfl
  · decide

/-- Claim C3: a counterexample packet whose code stream holds one code while
no 0x00 byte remains in the literal stream. With bytes.find returning -1 and
the Python slices silently accepting the index, decompress returns the value
[0, 65] instead of surfacing a synchronisation error: the pending code's value
[0] is spliced in before the literal 65 via the -1 cursor. -/
theorem c3_desync_silent_output :
    Compress.decompress Compress.init [0, 0, 0, 1, 65, 0, 0, 0, 1, 0]
      = Except.ok (⟨[0, 65], [([0], [0])], [([0], [0])]⟩, [0, 65]) := by
  rfl

/-- Claim C4: a counterexample buffer whose uint32 length prefix declares 10
bytes while only 4 remain. Buffer.read is a plain slice, so
Sequence.fromBytes silently returns the 4 remaining bytes instead of raising
a buffer-underrun or framing error. -/
theorem c4_underrun_truncated_read :
    Sequence.fromBytes ⟨[0, 0, 0, 10, 97, 98, 99, 100]⟩ = ([97, 98, 99, 100], ⟨[]⟩) := by
  rfl

/-- Claim C5: with a non-empty history, the ranked occurrence list is sorted
by descending count of the overlapping windows, keeps at most 255 distinct
windows, and code k (1 ≤ k ≤ len - 1) is assigned to the rank-k window, the
most frequent window getting code 1; the value of the last retained rank never
appears among the table's values (it is counted but never assigned a code). -/
theorem c5_ranked_code_assignment (b : Bytes) (hb : b ≠ []) :
    (rankedOcc b).Pairwise (fun x y => y.2 ≤ x.2)
    ∧ (∀ p ∈ rankedOcc b, p.1 ∈ Compress.windows b ∧ p.2 = (Compress.windows b).count p.1)
    ∧ ((rankedOcc b).map Prod.fst).Nodup
    ∧ (rankedOcc b).length = min 255 (Compress.occurrences b).length
    ∧ (∀ k, 1 ≤ k → k ≤ (rankedOcc b).length - 1 →
        List.lookup [k] (Compress.createTable b)
          = some ((rankedOcc b).getD (k - 1) ([], 0)).1)
    ∧ (∀ p, (rankedOcc b).getLast? = some p →
        p.1 ∉ (Compress.createTable b).map Prod.snd) := by
  have hlen : (rankedOcc b).length = min 255 (Compress.occurrences b).length := by
    rw [rankedOcc, List.length_take, (sortDesc_perm (Compress.occurrences b)).length_eq]
  refine ⟨?_, ?_, rankedOcc_keys_nodup b, hlen, ?_, ?_⟩
  · exact (sortDesc_sorted (Compress.occurrences b)).sublist (List.take_sublist 255 _)
  · intro p hp
    have hp2 : p ∈ sortDesc (Compress.occurrences b) := List.mem_of_mem_take hp
    have hp3 : p ∈ Compress.occurrences b :=
      (sortDesc_perm (Compress.occurrences b)).mem_iff.mp hp2
    refine ⟨?_, (occurrences_spec b).2.1 p hp3⟩
    exact ((occurrences_spec b).2.2 p.1).mp (List.mem_map.mpr ⟨p, hp3, rfl⟩)
  · intro k h1 h2
    exact createTable_lookup_code b k h1 h2 (by omega)
  · intro p hp hmem
    have hne : rankedOcc b ≠ [] := by
      intro h
      rw [h] at hp
      exact Option.noConfusion hp
    have hgl : (rankedOcc b).getLast hne = p := by
      have h := (List.getLast?_eq_getLast (rankedOcc b) hne).symm.trans hp
      exact Option.some_injective _ h
    have hpmem : p.1 ∈ (rankedOcc b).map Prod.fst := by
      refine List.mem_map.mpr ⟨p, ?_, rfl⟩
      rw [← hgl]
      exact List.getLast_mem hne
    rw [createTable_values] at hmem
    rcases List.mem_cons.mp hmem with h0 | htail
    · have hlv := rankedOcc_keys_length b p.1 hpmem
      rw [h0] at hlv
      simp [Compress.VALUE_SIZE] at hlv
    · have hsplit : (rankedOcc b).dropLast ++ [p] = rankedOcc b := by
        rw [← hgl]
        exact List.dropLast_concat_getLast hne
      have htake : (rankedOcc b).take ((rankedOcc b).length - 1) = (rankedOcc b).dropLast := by
        rw [List.dropLast_eq_take]
      rw [htake] at htail
      have hnodup := rankedOcc_keys_nodup b
      rw [← hsplit, List.map_append] at hnodup
      have hnot := (List.nodup_append.mp hnodup).2.2
      exact hnot htail (by simp)

/-- Witness for C5 at the concrete history [97, 97, 97, 97, 98]. -/
theorem c5_ranked_code_assignment_witness :
    (rankedOcc [97, 97, 97, 97, 98]).Pairwise (fun x y => y.2 ≤ x.2)
    ∧ (∀ p ∈ rankedOcc [97, 97, 97, 97, 98],
        p.1 ∈ Compress.windows [97, 97, 97, 97, 98]
        ∧ p.2 = (Compress.windows [97, 97, 97, 97, 98]).count p.1)
    ∧ ((rankedOcc [97, 97, 97, 97, 98]).map Prod.fst).Nodup
    ∧ (rankedOcc [97, 97, 97, 97, 98]).length
        = min 255 (Compress.occurrences [97, 97, 97, 97, 98]).length
    ∧ (∀ k, 1 ≤ k → k ≤ (rankedOcc [97, 97, 97, 97, 98]).length - 1 →
        List.lookup [k] (Compress.createTable [97, 97, 97, 97, 98])
          = some ((rankedOcc [97, 97, 97, 97, 98]).getD (k - 1) ([], 0)).1)
    ∧ (∀ p, (rankedOcc [97, 97, 97, 97, 98]).getLast? = some p →
        p.1 ∉ (Compress.createTable [97, 97, 97, 97, 98]).map Prod.snd) :=
  c5_ranked_code_assignment [97, 97, 97, 97, 98] (by decide)

/-- Truncation to n absorbs an earlier truncation to n of a prefix. -/
theorem take_append_absorb (n : Nat) (l1 l2 : Bytes) :
    (l1.take n ++ l2).take n = (l1 ++ l2).take n := by
  induction n generalizing l1 with
  | zero => simp
  | succ n ih =>
      cases l1 with
      | nil => simp
      | cons a t =>
          simp only [List.take_succ_cons, List.cons_append]
          rw [ih t]

/-- Folding addToBuffer over a list of payloads truncates their concatenation
(after the starting buffer) to BUFFER_SIZE. -/
theorem foldl_addToBuffer : ∀ (ps : List Bytes) (st : Compress),
    st.buffer.length ≤ Compress.BUFFER_SIZE →
    (ps.foldl Compress.addToBuffer st).buffer
      = (st.buffer ++ ps.flatten).take Compress.BUFFER_SIZE := by
  intro ps
  induction ps with
  | nil =>
      intro st hlen
      simp only [List.foldl_nil, List.flatten_nil, List.append_nil]
      exact (List.take_of_length_le hlen).symm
  | cons b ps ih =>
      intro st hlen
      rw [List.foldl_cons]
      rw [ih (st.addToBuffer b) (by
        simp only [Compress.addToBuffer, List.length_take]
        omega)]
      simp only [Compress.addToBuffer]
      rw [take_append_absorb]
      rw [List.flatten_cons, List.append_assoc]

/-- Claim C6: once the payloads appended to an initially empty history buffer
total more than BUFFER_SIZE bytes, the buffer holds exactly the first
BUFFER_SIZE bytes ever appended, its length is exactly BUFFER_SIZE, and any
later appends leave it unchanged (a frozen prefix, not a sliding window). -/
theorem c6_frozen_prefix (st : Compress) (hempty : st.buffer = []) (ps : List Bytes)
    (hover : Compress.BUFFER_SIZE < ps.flatten.length) :
    (ps.foldl Compress.addToBuffer st).buffer = ps.flatten.take Compress.BUFFER_SIZE
    ∧ (ps.foldl Compress.addToBuffer st).buffer.length = Compress.BUFFER_SIZE
    ∧ ∀ qs : List Bytes,
        ((ps ++ qs).foldl Compress.addToBuffer st).buffer
          = ps.flatten.take Compress.BUFFER_SIZE := by
  have h1 : (ps.foldl Compress.addToBuffer st).buffer
      = ps.flatten.take Compress.BUFFER_SIZE := by
    rw [foldl_addToBuffer ps st (by rw [hempty]; simp), hempty, List.nil_append]
  refine ⟨h1, ?_, ?_⟩
  · rw [h1, List.length_take]
    omega
  · intro qs
    rw [foldl_addToBuffer (ps ++ qs) st (by rw [hempty]; simp), hempty, List.nil_append]
    rw [List.flatten_append]
    rw [List.take_append_of_le_length (by omega)]

/-- Witness for C6: two 600-byte payloads overflow the 1000-byte buffer. -/
theorem c6_frozen_prefix_witness :
    (([List.replicate 600 7, List.replicate 600 8] : List Bytes).foldl
        Compress.addToBuffer Compress.init).buffer
      = ([List.replicate 600 7, List.replicate 600 8] : List Bytes).flatten.take
          Compress.BUFFER_SIZE
    ∧ (([List.replicate 600 7, List.replicate 600 8] : List Bytes).foldl
        Compress.addToBuffer Compress.init).buffer.length = Compress.BUFFER_SIZE
    ∧ ∀ qs : List Bytes,
        ((([List.replicate 600 7, List.replicate 600 8] : List Bytes) ++ qs).foldl
            Compress.addToBuffer Compress.init).buffer
          = ([List.replicate 600 7, List.replicate 600 8] : List Bytes).flatten.take
              Compress.BUFFER_SIZE :=
  c6_frozen_prefix Compress.init rfl [List.replicate 600 7, List.replicate 600 8]
    (by norm_num [Compress.BUFFER_SIZE, List.flatten_cons, List.flatten_nil])

/-- Claim C7: every rebuild produces a table holding the reserved entry
code 0x00 -> literal 0x00 and an inverse table mapping the one-byte value 0x00
back to code 0x00; on an empty history these reserved entries are the only
entries of either table. -/
theorem c7_reserved_entry (st : Compress) :
    List.lookup ([0] : Bytes) (Compress.generateTable st).table = some [0]
    ∧ List.lookup ([0] : Bytes) (Compress.generateTable st).tableInverted = some [0]
    ∧ (st.buffer = [] →
        (Compress.generateTable st).table = [([0], [0])]
        ∧ (Compress.generateTable st).tableInverted = [([0], [0])]) := by
  refine ⟨createTable_lookup_zero st.buffer, table_h1 st.buffer, ?_⟩
  intro hb
  constructor
  · show Compress.createTable st.buffer = [([0], [0])]
    rw [hb]
    rfl
  · show invertDict (Compress.createTable st.buffer) = [([0], [0])]
    rw [hb]
    rfl

/-- Witness for C7 at the freshly initialised state, whose history is empty. -/
theorem c7_reserved_entry_witness :
    List.lookup ([0] : Bytes) (Compress.generateTable Compress.init).table = some [0]
    ∧ List.lookup ([0] : Bytes) (Compress.generateTable Compress.init).tableInverted = some [0]
    ∧ (Compress.generateTable Compress.init).table = [([0], [0])]
    ∧ (Compress.generateTable Compress.init).tableInverted = [([0], [0])] :=
  ⟨(c7_reserved_entry Compress.init).1, (c7_reserved_entry Compress.init).2.1,
   ((c7_reserved_entry Compress.init).2.2 rfl).1, ((c7_reserved_entry Compress.init).2.2 rfl).2⟩

/-- Claim C8: neither compress nor decompress changes the forward or inverse
table (only an explicit rebuild does), and each appends the plaintext to the
history buffer up to capacity: the original payload for compress, the
reconstructed payload for decompress. -/
theorem c8_frame (st st1 : Compress) (x packed out : Bytes) :
    (Compress.compress st x = Except.ok (st1, packed) →
      st1.table = st.table ∧ st1.tableInverted = st.tableInverted
      ∧ st1.buffer = (st.buffer ++ x).take Compress.BUFFER_SIZE)
    ∧ (Compress.decompress st x = Except.ok (st1, out) →
      st1.table = st.table ∧ st1.tableInverted = st.tableInverted
      ∧ st1.buffer = (st.buffer ++ out).take Compress.BUFFER_SIZE) := by
  constructor
  · intro h
    unfold Compress.compress at h
    cases hq : Compress.compressLoop (st.addToBuffer x).tableInverted x 0 [] with
    | error e =>
        rw [hq, compressPacked_err] at h
        exact Except.noConfusion h
    | ok pr =>
        obtain ⟨b1, cs⟩ := pr
        rw [hq, compressPacked_ok] at h
        cases hp : compressStruct.toBytes [b1, cs.flatten] with
        | error e =>
            rw [hp, compressFinish_err] at h
            exact Except.noConfusion h
        | ok p =>
            rw [hp, compressFinish_ok] at h
            injection h with h1
            injection h1 with hst hpk
            rw [← hst]
            exact ⟨rfl, rfl, rfl⟩
  · intro h
    unfold Compress.decompress at h
    rcases hfb : compressStruct.fromBytes x with ⟨lit, craw⟩
    rw [hfb] at h
    simp only [] at h
    cases hl : Compress.decompressLoop st.table
        ((List.range craw.length).map
          (fun i => pySlice craw (Nat.cast i : Int) (Nat.cast (i + Compress.KEY_SIZE) : Int)))
        lit 0 with
    | error e =>
        rw [hl, except_bind_err] at h
        exact Except.noConfusion h
    | ok b1 =>
        rw [hl] at h
        simp only [except_bind_ok, except_pure_ok] at h
        injection h with h1
        injection h1 with hst hout
        rw [← hst, ← hout]
        exact ⟨rfl, rfl, rfl⟩

/-- Witness for C8: decompressing the packet of two empty sequences from the
initial state succeeds and leaves the tables unchanged. -/
theorem c8_frame_witness :
    (⟨[], [([0], [0])], [([0], [0])]⟩ : Compress).table = Compress.init.table
    ∧ (⟨[], [([0], [0])], [([0], [0])]⟩ : Compress).tableInverted
        = Compress.init.tableInverted
    ∧ (⟨[], [([0], [0])], [([0], [0])]⟩ : Compress).buffer
        = (Compress.init.buffer ++ []).take Compress.BUFFER_SIZE :=
  (c8_frame Compress.init ⟨[], [([0], [0])], [([0], [0])]⟩
    [0, 0, 0, 0, 0, 0, 0, 0] [] []).2 (by rfl)

theorem validate_unsigned_neg (bits : Nat) (x : Int) (h0 : x < 0) :
    IntDT.validateValue bits false x
      = Except.error (DErr.assertionError "Got signed value, but this is unsigned datatype") := by
  unfold IntDT.validateValue
  rw [if_neg Bool.false_ne_true, if_neg (by omega)]
  rfl

/-- Claim C9, counterexample to the unamended statement: in a 4-bit unsigned
field the claim promises that 2^4 - 1 = 15 encodes successfully, but
BITS // 8 = 0 bytes cannot hold it, so Int.toBytes raises OverflowError. -/
theorem c9_boundary_counterexample :
    IntDT.toBytes 4 false ((2 ^ 4 : Int) - 1) = Except.error DErr.overflowError := by
  rfl

/-- Claim C9, amended: restricted to widths divisible by 8 (so that BITS // 8
bytes hold exactly BITS bits), 2^N - 1 encodes successfully, 2^N fails the
range assertion, and every negative value fails the signedness assertion. -/
theorem c9_boundary_amended (N : Nat) (h8 : N % 8 = 0) :
    (∃ bs, IntDT.toBytes N false ((2 ^ N : Int) - 1) = Except.ok bs)
    ∧ IntDT.toBytes N false (2 ^ N : Int)
        = Except.error (DErr.assertionError "Integer overflow")
    ∧ (∀ x : Int, x < 0 →
        IntDT.toBytes N false x
          = Except.error
              (DErr.assertionError "Got signed value, but this is unsigned datatype")) := by
  have hpow : (0 : Int) < 2 ^ N := by positivity
  have hexp : 8 * (N / 8) = N := Nat.mul_div_cancel' (Nat.dvd_of_mod_eq_zero h8)
  refine ⟨⟨natToBE (N / 8) ((2 ^ N : Int) - 1).toNat, ?_⟩, ?_, ?_⟩
  · unfold IntDT.toBytes
    rw [validate_unsigned_ok N ((2 ^ N : Int) - 1) (by omega) (by omega), except_bind_ok]
    rw [pyIntToBytes_unsigned_ok ((2 ^ N : Int) - 1) (N / 8) (by omega) (by rw [hexp]; omega)]
  · unfold IntDT.toBytes
    rw [validate_unsigned_overflow N (2 ^ N : Int) (by omega) (by omega), except_bind_err]
  · intro x hx
    unfold IntDT.toBytes
    rw [validate_unsigned_neg N x hx, except_bind_err]

/-- Witness for the amended C9 statement at the 8-bit width. -/
theorem c9_boundary_amended_witness :
    (∃ bs, IntDT.toBytes 8 false ((2 ^ 8 : Int) - 1) = Except.ok bs)
    ∧ IntDT.toBytes 8 false (2 ^ 8 : Int)
        = Except.error (DErr.assertionError "Integer overflow")
    ∧ (∀ x : Int, x < 0 →
        IntDT.toBytes 8 false x
          = Except.error
              (DErr.assertionError "Got signed value, but this is unsigned datatype")) :=
  c9_boundary_amended 8 (by decide)

/-- Claim C10: after a rebuild the two tables are mutual inverses. The forward
table's values are pairwise distinct (so distinct codes never share a value;
the reserved code's one-byte value cannot collide with a VALUE_SIZE-byte
window), a forward entry is always found by the inverse lookup, and every
inverse entry comes from a forward entry. -/
theorem c10_mutual_inverse (st : Compress) :
    ((Compress.generateTable st).table.map Prod.snd).Nodup
    ∧ (∀ c v, List.lookup c (Compress.generateTable st).table = some v →
        List.lookup v (Compress.generateTable st).tableInverted = some c
        ∧ (c = [0] ∧ v = [0] ∨ v.length = Compress.VALUE_SIZE))
    ∧ (∀ v c, List.lookup v (Compress.generateTable st).tableInverted = some c →
        List.lookup c (Compress.generateTable st).table = some v) := by
  have e1 : (Compress.generateTable st).table = Compress.createTable st.buffer := rfl
  have e2 : (Compress.generateTable st).tableInverted
      = invertDict (Compress.createTable st.buffer) := rfl
  rw [e1, e2]
  refine ⟨createTable_values_nodup st.buffer, ?_, ?_⟩
  · intro c v h
    refine ⟨table_inv_complete st.buffer c v h, ?_⟩
    rcases createTable_mem st.buffer c v (lookup_mem h) with ⟨hc, hv⟩ | ⟨k, hk, hc, hv⟩
    · exact Or.inl ⟨hc, hv⟩
    · right
      have hkl : k < (rankedOcc st.buffer).length := by omega
      have hgd : (rankedOcc st.buffer).getD k ([], 0) = (rankedOcc st.buffer).get ⟨k, hkl⟩ := by
        rw [List.getD_eq_getElem?_getD, List.getElem?_eq_getElem hkl]
        rfl
      have hmemk : (rankedOcc st.buffer).getD k ([], 0) ∈ rankedOcc st.buffer := by
        rw [hgd]
        exact List.get_mem _ _ hkl
      have hvm : v ∈ (rankedOcc st.buffer).map Prod.fst :=
        List.mem_map.mpr ⟨_, hmemk, hv.symm⟩
      exact rankedOcc_keys_length st.buffer v hvm
  · intro v c h
    exact table_inv_sound st.buffer v c h

/-- Witness for C10 from the history [97, 97, 97, 97, 98]: code [1] maps to
the window [97, 97, 97], which the inverse table maps back to [1]. -/
theorem c10_mutual_inverse_witness :
    ((Compress.generateTable ⟨[97, 97, 97, 97, 98], [], []⟩).table.map Prod.snd).Nodup
    ∧ (List.lookup [97, 97, 97]
          (Compress.generateTable ⟨[97, 97, 97, 97, 98], [], []⟩).tableInverted = some [1]
        ∧ (([1] : Bytes) = [0] ∧ ([97, 97, 97] : Bytes) = [0]
            ∨ ([97, 97, 97] : Bytes).length = Compress.VALUE_SIZE)) :=
  ⟨(c10_mutual_inverse ⟨[97, 97, 97, 97, 98], [], []⟩).1,
   (c10_mutual_inverse ⟨[97, 97, 97, 97, 98], [], []⟩).2.1 [1] [97, 97, 97] (by decide)⟩
